import Mathlib

/-!
# Verification of the jelly sliding-block solver (`src/solve.cc`)

This file gives a shallow embedding of the state model, move simulator,
win detector, successor generator and breadth-first search of the puzzle
solver in `src/solve.cc`, and proves the specification claims about it.

The C++ recursion (`GrabMovable`, `Regroup`, `MarkColorVisited`) is
structurally unbounded; here each such function takes an explicit fuel
argument, and the public wrappers pass a fuel that provably suffices
(one more than the number of cells the recursion can visit), so the
embedding computes exactly what the C++ computes on every input on which
the C++ recursion terminates.
-/

set_option maxHeartbeats 1000000

namespace Jelly

/-- `Cell::Type` from the source: `OPEN = 0, WALL = 1, MOVABLE = 2`. -/
inductive CellType where
  | OPEN
  | WALL
  | MOVABLE
deriving DecidableEq, Repr

/-- `struct Cell`: a tag, a color (`0` for black, `1+` for a color, only
meaningful for movable cells) and a group number (`0` if not movable). -/
structure Cell where
  type : CellType := CellType.OPEN
  color : Nat := 0
  group : Nat := 0
deriving DecidableEq, Repr

/-- The default cell `Cell()`: open, color 0, group 0. -/
def Cell.empty : Cell := {}

/-- A wall cell `Cell{.type = Cell::WALL}`. -/
def Cell.wall : Cell := { type := CellType.WALL }

/-- `class Level`: width and height (both including the padding walls),
the number of movable groups, and the row-major grid of cells. -/
structure Level where
  width : Nat
  height : Nat
  groups : Nat
  grid : List (List Cell)
deriving DecidableEq, Repr

/-- The all-zero level, used only as a `getD` default. -/
def Level.empty : Level := { width := 0, height := 0, groups := 0, grid := [] }

/-- `grid[r][c]`.  The C++ accesses are always in bounds (the levels it
builds have a full wall border); out-of-range reads return an open cell. -/
def Level.get (lv : Level) (r c : Int) : Cell :=
  if 0 ≤ r ∧ 0 ≤ c then (lv.grid.getD r.toNat []).getD c.toNat Cell.empty
  else Cell.empty

/-- `grid[r][c] = x`.  Out-of-range writes (never performed by the code on
its own levels) are dropped. -/
def Level.setCell (lv : Level) (r c : Int) (x : Cell) : Level :=
  if 0 ≤ r ∧ 0 ≤ c then
    { lv with grid := lv.grid.set r.toNat ((lv.grid.getD r.toNat []).set c.toNat x) }
  else lv

/-- The interior cell coordinates `(r, c)` with `1 ≤ r`, `r + 1 < height`,
`1 ≤ c`, `c + 1 < width`, in the row-major order in which every
double loop of the source visits them. -/
def interiorScan (height width : Nat) : List (Int × Int) :=
  (List.range (height - 2)).flatMap fun r =>
    (List.range (width - 2)).map fun c => (Int.ofNat r + 1, Int.ofNat c + 1)

/-- Number of movable cells in the grid; an upper bound for the recursion
depth of `GrabMovable` and `MarkColorVisited`, used as fuel. -/
def movableCount (lv : Level) : Nat :=
  (lv.grid.map fun row => (row.filter fun x => decide (x.type = CellType.MOVABLE)).length).sum

/-- Number of cells in the grid with group `g`; an upper bound for the
recursion depth of `Regroup`, used as fuel. -/
def groupCellCount (lv : Level) (g : Nat) : Nat :=
  (lv.grid.map fun row => (row.filter fun x => decide (x.group = g)).length).sum

/-- The four orthogonal directions `(DR[d], DC[d])` for `d = 0, 1, 2, 3`:
left, right, down, up. -/
def dirs : List (Int × Int) := [(0, -1), (0, 1), (1, 0), (-1, 0)]

/-- The `for (int d = 0; d < ND; ++d)` loop of `GrabMovable`: in the push
direction a wall aborts, a movable cell is grabbed regardless of group; in
the other directions a movable cell is grabbed when it has group `g`.  The
recursive `GrabMovable` call is the parameter `sub` (instantiated with the
grab at the next fuel level, so that the recursion is structural). -/
def grabDirsGo (sub : Level → List ((Int × Int) × Cell) → Int → Int → Int → Int →
    List ((Int × Int) × Cell) × Level × Bool) :
    Level → List ((Int × Int) × Cell) → Int → Int → Int → Int → Nat →
      List (Int × Int) → List ((Int × Int) × Cell) × Level × Bool
  | lv, pts, _, _, _, _, _, [] => (pts, lv, true)
  | lv, pts, r, c, dr, dc, g, (ddr, ddc) :: rest =>
    let r2 := r + ddr
    let c2 := c + ddc
    if ddr = dr ∧ ddc = dc then
      if (lv.get r2 c2).type = CellType.WALL then (pts, lv, false)
      else if (lv.get r2 c2).type = CellType.MOVABLE then
        match sub lv pts r2 c2 dr dc with
        | (pts2, lv2, true) => grabDirsGo sub lv2 pts2 r c dr dc g rest
        | out => out
      else grabDirsGo sub lv pts r c dr dc g rest
    else
      if (lv.get r2 c2).type = CellType.MOVABLE ∧ (lv.get r2 c2).group = g then
        match sub lv pts r2 c2 dr dc with
        | (pts2, lv2, true) => grabDirsGo sub lv2 pts2 r c dr dc g rest
        | out => out
      else grabDirsGo sub lv pts r c dr dc g rest

/-- `Level::GrabMovable`: record and clear the cell at `(r, c)`, then walk
the four directions.  Returns the accumulated `points`, the mutated grid
and the success flag.  The C++ stores each recorded coordinate pair as
`Point::Narrow(r, c)`, an explicit `uint8_t` cast of each component, i.e.
the value modulo 256; the recorded points here carry exactly those
narrowed values. -/
def grabMovable : Nat → Level → List ((Int × Int) × Cell) → Int → Int → Int → Int →
    List ((Int × Int) × Cell) × Level × Bool
  | 0, lv, pts, _, _, _, _ => (pts, lv, false)
  | fuel + 1, lv, pts, r, c, dr, dc =>
    let cl := lv.get r c
    grabDirsGo (grabMovable fuel) (lv.setCell r c Cell.empty)
      (pts ++ [((r % 256, c % 256), cl)]) r c dr dc cl.group dirs

/-- The same grab recursion recording full-precision coordinates instead
of the `uint8_t`-narrowed ones — a reasoning aid, not part of the source
embedding.  `grab_narrow` below shows the real `grabMovable` returns the
same grid and flag and the pointwise-narrowed point list, so facts about
the recursion transfer, and on grids small enough that every coordinate is
below 256 the two coincide exactly. -/
def grabRecord : Nat → Level → List ((Int × Int) × Cell) → Int → Int → Int → Int →
    List ((Int × Int) × Cell) × Level × Bool
  | 0, lv, pts, _, _, _, _ => (pts, lv, false)
  | fuel + 1, lv, pts, r, c, dr, dc =>
    let cl := lv.get r c
    grabDirsGo (grabRecord fuel) (lv.setCell r c Cell.empty)
      (pts ++ [((r, c), cl)]) r c dr dc cl.group dirs

/-- The write-back loop of `Level::TryMove`: each recorded cell is written
to its original coordinate shifted by `(dr, dc)`.  The boolean is the
conjunction of the `assert(grid[r2][c2].type == Cell::OPEN)` checks,
each evaluated on the grid as it is at the time of that write. -/
def placeAll (lv : Level) (pts : List ((Int × Int) × Cell)) (dr dc : Int) :
    Level × Bool :=
  match pts with
  | [] => (lv, true)
  | ((r, c), cl) :: rest =>
    let ok := decide ((lv.get (r + dr) (c + dc)).type = CellType.OPEN)
    let res := placeAll (lv.setCell (r + dr) (c + dc) cl) rest dr dc
    (res.1, ok && res.2)

/-- `Level::TryMove`: grab, then place with the push delta on success or
with delta zero (rollback) on failure.  Returns the success flag and the
resulting grid.  The write-back targets `p.first.r + dr, p.first.c + dc`
where `p.first` holds the `uint8_t`-narrowed coordinates recorded by the
grab, so on grids with coordinates of 256 or more the writes land at the
truncated positions. -/
def tryMove (lv : Level) (r c dr dc : Int) : Bool × Level :=
  let res := grabMovable (movableCount lv + 1) lv [] r c dr dc
  let d : Int × Int := if res.2.2 then (dr, dc) else (0, 0)
  (res.2.2, (placeAll res.2.1 res.1 d.1 d.2).1)

/-- `TryMove` over the full-precision recorded points: the reasoning-aid
variant matching `grabRecord`.  Equal to `tryMove` on grids whose
coordinates all fit in `uint8_t` (`tryMove_eq_of_fits`). -/
def tryMoveR (lv : Level) (r c dr dc : Int) : Bool × Level :=
  let res := grabRecord (movableCount lv + 1) lv [] r c dr dc
  let d : Int × Int := if res.2.2 then (dr, dc) else (0, 0)
  (res.2.2, (placeAll res.2.1 res.1 d.1 d.2).1)

/-- The conjunction of the `assert(grid[r2][c2].type == Cell::OPEN)` checks
performed by the place step of `TryMove` on the given level. -/
def tryMoveAssertOk (lv : Level) (r c dr dc : Int) : Bool :=
  let res := grabMovable (movableCount lv + 1) lv [] r c dr dc
  let d : Int × Int := if res.2.2 then (dr, dc) else (0, 0)
  (placeAll res.2.1 res.1 d.1 d.2).2

/-- The place-step assert conjunction of the full-precision variant
`tryMoveR`. -/
def tryMoveAssertOkR (lv : Level) (r c dr dc : Int) : Bool :=
  let res := grabRecord (movableCount lv + 1) lv [] r c dr dc
  let d : Int × Int := if res.2.2 then (dr, dc) else (0, 0)
  (placeAll res.2.1 res.1 d.1 d.2).2

/-- One step of `Level::DropDown`: try to push the cell at `p` down. -/
def dropStep (lv : Level) (p : Int × Int) : Level :=
  if (lv.get p.1 p.2).type = CellType.MOVABLE then (tryMove lv p.1 p.2 1 0).2 else lv

/-- `Level::DropDown`: a single top-to-bottom, left-to-right sweep over all
interior cells, pushing each movable cell down by one using `TryMove`. -/
def dropDown (lv : Level) : Level :=
  (interiorScan lv.height lv.width).foldl dropStep lv

/-- `Level::Regroup` with fuel: 4-direction flood fill reassigning group
`src` to group `dst` starting from `(r, c)`. -/
def regroupF (fuel : Nat) (lv : Level) (r c : Int) (src dst : Nat) : Level :=
  match fuel with
  | 0 => lv
  | fuel + 1 =>
    if (lv.get r c).group ≠ src then lv
    else
      let lv1 := lv.setCell r c { lv.get r c with group := dst }
      let lv2 := regroupF fuel lv1 (r - 1) c src dst
      let lv3 := regroupF fuel lv2 (r + 1) c src dst
      let lv4 := regroupF fuel lv3 r (c - 1) src dst
      regroupF fuel lv4 r (c + 1) src dst

/-- `Level::Regroup` (the C++ recursion terminates because every recursive
step repaints one cell of group `src`; `groupCellCount` bounds it). -/
def regroup (lv : Level) (r c : Int) (src dst : Nat) : Level :=
  regroupF (groupCellCount lv src + 1) lv r c src dst

/-- One cell of the `Level::RemoveUnusedGroupNumber` loop: decrement the
group number if it exceeds `g`. -/
def removeCellStep (g : Nat) (lv : Level) (p : Int × Int) : Level :=
  let cl := lv.get p.1 p.2
  if g < cl.group then lv.setCell p.1 p.2 { cl with group := cl.group - 1 } else lv

/-- `Level::RemoveUnusedGroupNumber`: close the numbering gap left by the
removed group `g` and decrement the group count. -/
def removeUnusedGroupNumber (lv : Level) (g : Nat) : Level :=
  let lv2 := (interiorScan lv.height lv.width).foldl (removeCellStep g) lv
  { lv2 with groups := lv2.groups - 1 }

/-- The `assert(grid[r][c].group != g)` checks of `RemoveUnusedGroupNumber`:
true when no interior cell still carries the removed group number. -/
def removeUnusedAssertOk (lv : Level) (g : Nat) : Bool :=
  (interiorScan lv.height lv.width).all fun p => !decide ((lv.get p.1 p.2).group = g)

/-- The body of the `Level::UpdateConnections` double loop for one interior
cell: for a colored movable cell, merge the right neighbor's group and then
the below neighbor's group into this cell's group when they match in color
but differ in group.  (The C++ `cell` is a reference into the grid, so the
second check reads the group as updated by the first merge.) -/
def updateCell (lv : Level) (p : Int × Int) : Level :=
  let r := p.1
  let c := p.2
  let cl := lv.get r c
  if cl.type = CellType.MOVABLE ∧ 0 < cl.color then
    let right := lv.get r (c + 1)
    let lv1 :=
      if right.type = CellType.MOVABLE ∧ right.group ≠ cl.group ∧ right.color = cl.color then
        removeUnusedGroupNumber (regroup lv r (c + 1) right.group cl.group) right.group
      else lv
    let cl1 := lv1.get r c
    let down := lv1.get (r + 1) c
    if down.type = CellType.MOVABLE ∧ down.group ≠ cl1.group ∧ down.color = cl1.color then
      removeUnusedGroupNumber (regroup lv1 (r + 1) c down.group cl1.group) down.group
    else lv1
  else lv

/-- `Level::UpdateConnections`: the merge pass over all interior cells. -/
def updateConnections (lv : Level) : Level :=
  (interiorScan lv.height lv.width).foldl updateCell lv

/-- `Level::MoveGroup`: find the first interior cell of the group in scan
order, try to push it; on success run `DropDown` and `UpdateConnections`.
Returns the success flag and the resulting level (the C++ mutates in
place; on failure `TryMove` has rolled the grid back). -/
def moveGroup (lv : Level) (g : Nat) (dr dc : Int) : Bool × Level :=
  match (interiorScan lv.height lv.width).find? (fun p => decide ((lv.get p.1 p.2).group = g)) with
  | some p =>
    let res := tryMove lv p.1 p.2 dr dc
    if res.1 then (true, updateConnections (dropDown res.2)) else (false, res.2)
  | none => (false, lv)

/-- One neighbor check of `MarkColorVisited`: flood into the neighbor when
it is movable, has the right color and is unvisited.  The recursive
`MarkColorVisited` call is the parameter `sub`. -/
def mcvGo (sub : List (Int × Int) → Int → Int → List (Int × Int)) (lv : Level)
    (col : Nat) (vis : List (Int × Int)) (r2 c2 : Int) : List (Int × Int) :=
  if (lv.get r2 c2).type = CellType.MOVABLE ∧ (lv.get r2 c2).color = col ∧
      (r2, c2) ∉ vis then
    sub vis r2 c2
  else vis

/-- `Level::MarkColorVisited` with fuel: mark `(r, c)` visited, then flood
into each of the four neighbors that is movable, has the same color as the
cell at `(r, c)`, and is not yet visited.  The C++ visited matrix is
represented by the list of visited coordinates. -/
def markColorVisitedF : Nat → Level → List (Int × Int) → Int → Int → List (Int × Int)
  | 0, _, vis, _, _ => vis
  | fuel + 1, lv, vis, r, c =>
    let col := (lv.get r c).color
    let v0 := vis ++ [(r, c)]
    let v1 := mcvGo (markColorVisitedF fuel lv) lv col v0 r (c - 1)
    let v2 := mcvGo (markColorVisitedF fuel lv) lv col v1 r (c + 1)
    let v3 := mcvGo (markColorVisitedF fuel lv) lv col v2 (r + 1) c
    mcvGo (markColorVisitedF fuel lv) lv col v3 (r - 1) c

/-- The double loop of `Level::Solved` over the remaining scan positions:
each unvisited colored movable cell discovers one color region; a color
discovered twice means the level is not solved. -/
def solvedLoop (lv : Level) (vis : List (Int × Int)) (cols : List Nat)
    (ps : List (Int × Int)) : Bool :=
  match ps with
  | [] => true
  | (r, c) :: rest =>
    if (r, c) ∉ vis ∧ (lv.get r c).type = CellType.MOVABLE ∧ 0 < (lv.get r c).color then
      if (lv.get r c).color ∈ cols then false
      else solvedLoop lv (markColorVisitedF (movableCount lv + 1) lv vis r c)
        ((lv.get r c).color :: cols) rest
    else solvedLoop lv vis cols rest

/-- `Level::Solved`: true when no color occupies two disjoint
same-color-connected regions. -/
def Solved (lv : Level) : Bool :=
  solvedLoop lv [] [] (interiorScan lv.height lv.width)

/-- One character of the `Level` constructor: `#` is a wall, a digit
`'1'..'9'` is a movable cell with a fresh group number, anything else is
open.  Threads the running group counter.  The C++ stores the cell's group
as `static_cast<uint8_t>(++groups)`, so the stored number is the counter
modulo 256 while the counter itself is a full-width `int`. -/
def cellOfChar (ch : Char) (g : Nat) : Cell × Nat :=
  if ch = '#' then (Cell.wall, g)
  else if '1' ≤ ch ∧ ch ≤ '9' then
    ({ type := CellType.MOVABLE, color := ch.toNat - '0'.toNat, group := (g + 1) % 256 }, g + 1)
  else (Cell.empty, g)

/-- Build one interior row of the constructor's grid (without the border
walls), threading the group counter. -/
def buildRow (chars : List Char) (g : Nat) : List Cell × Nat :=
  chars.foldl (fun acc ch =>
    let rc := cellOfChar ch acc.2
    (acc.1 ++ [rc.1], rc.2)) ([], g)

/-- Build all interior rows of the constructor's grid, with the left and
right border walls attached, threading the group counter. -/
def buildRows (rows : List (List Char)) (g : Nat) : List (List Cell) × Nat :=
  rows.foldl (fun acc row =>
    let rg := buildRow row acc.2
    (acc.1 ++ [Cell.wall :: rg.1 ++ [Cell.wall]], rg.2)) ([], g)

/-- The `Level(const std::vector<std::string>&)` constructor: synthesize
the wall border, number the movable cells `1, 2, ...` in row-major order,
then run the initial `UpdateConnections` pass. -/
def Level.ofLines (input : List (List Char)) : Level :=
  let width := (input.headD []).length + 2
  let height := input.length + 2
  let built := buildRows input 0
  updateConnections
    { width := width, height := height, groups := built.2,
      grid := List.replicate width Cell.wall :: built.1 ++ [List.replicate width Cell.wall] }

/-- Three-way comparison of `Nat`, mirroring `operator<=>`. -/
def natCmp (a b : Nat) : Ordering :=
  if a < b then Ordering.lt else if b < a then Ordering.gt else Ordering.eq

/-- The numeric value of the `Cell::Type` enumerators. -/
def cellTypeVal : CellType → Nat
  | CellType.OPEN => 0
  | CellType.WALL => 1
  | CellType.MOVABLE => 2

/-- `Cell::operator<=>`: member-wise lexicographic comparison. -/
def cellCmp (a b : Cell) : Ordering :=
  (natCmp (cellTypeVal a.type) (cellTypeVal b.type)).then
    ((natCmp a.color b.color).then (natCmp a.group b.group))

/-- Lexicographic comparison of lists, mirroring `std::vector::operator<=>`. -/
def listCmp (cmp : α → α → Ordering) : List α → List α → Ordering
  | [], [] => Ordering.eq
  | [], _ :: _ => Ordering.lt
  | _ :: _, [] => Ordering.gt
  | a :: as, b :: bs => (cmp a b).then (listCmp cmp as bs)

/-- `Level::operator<=>`: member-wise comparison of width, height, group
count and the grid. -/
def levelCmp (a b : Level) : Ordering :=
  (natCmp a.width b.width).then ((natCmp a.height b.height).then
    ((natCmp a.groups b.groups).then (listCmp (listCmp cellCmp) a.grid b.grid)))

/-- The non-strict order on levels induced by `Level::operator<=>`, used to
model `std::sort`. -/
def levelLE (a b : Level) : Prop := levelCmp a b ≠ Ordering.gt

instance : DecidableRel levelLE := fun a b => by
  unfold levelLE
  infer_instance

/-- The tail loop of `std::unique` on a sorted list: drop each element
equal to its predecessor. -/
def dedupAdjGo (prev : Level) : List Level → List Level
  | [] => []
  | b :: rest => if prev = b then dedupAdjGo prev rest else b :: dedupAdjGo b rest

/-- `std::unique` on a sorted list: drop each element equal to its
predecessor. -/
def dedupAdj : List Level → List Level
  | [] => []
  | a :: rest => a :: dedupAdjGo a rest

/-- The candidate loop of `Level::Successors`: for every group number and
both horizontal directions, attempt the move on the working copy; keep the
result and restore the copy on success (on failure `MoveGroup` has already
rolled the copy back, and the C++ keeps using it). -/
def succLoop (orig : Level) (copy : Level) (gs : List (Nat × Int))
    (acc : List Level) : List Level :=
  match gs with
  | [] => acc
  | (g, dc) :: rest =>
    let res := moveGroup copy g 0 dc
    if res.1 then succLoop orig orig rest (acc ++ [res.2])
    else succLoop orig res.2 rest acc

/-- The `(g, dc)` pairs tried by `Successors`, in order. -/
def gdcList (groups : Nat) : List (Nat × Int) :=
  (List.range groups).flatMap fun g => [(g + 1, -1), (g + 1, 1)]

/-- `Level::Successors`: all states reachable by one successful group
push, sorted (`std::sort`, modelled by insertion sort into the same
ascending order) and with adjacent duplicates removed (`std::unique`). -/
def successors (lv : Level) : List Level :=
  dedupAdj (List.insertionSort levelLE (succLoop lv lv (gdcList lv.groups) []))

/-- `(r, c)` addresses an actual entry of the grid table. -/
def InBounds (lv : Level) (r c : Int) : Prop :=
  0 ≤ r ∧ 0 ≤ c ∧ r.toNat < lv.grid.length ∧ c.toNat < (lv.grid.getD r.toNat []).length

theorem list_set_getD (l : List α) (n : Nat) (d : α) : l.set n (l.getD n d) = l := by
  rcases Nat.lt_or_ge n l.length with h | h
  · apply List.ext_getElem?
    intro i
    rcases eq_or_ne n i with rfl | hne
    · rw [List.getElem?_set_self h, List.getD_eq_getElem l d h, List.getElem?_eq_getElem h]
    · rw [List.getElem?_set_ne hne]
  · exact List.set_eq_of_length_le h

theorem get_of_not_inBounds (lv : Level) (r c : Int) (h : ¬ InBounds lv r c) :
    lv.get r c = Cell.empty := by
  unfold Level.get InBounds at *
  by_cases h1 : 0 ≤ r ∧ 0 ≤ c
  · simp only [h1, if_true]
    rcases Nat.lt_or_ge r.toNat lv.grid.length with h2 | h2
    · rcases Nat.lt_or_ge c.toNat (lv.grid.getD r.toNat []).length with h3 | h3
      · exact absurd ⟨h1.1, h1.2, h2, h3⟩ h
      · exact List.getD_eq_default _ _ h3
    · rw [List.getD_eq_default _ _ h2]
      simp [List.getD]
  · simp [h1]

theorem inBounds_of_get_ne (lv : Level) (r c : Int) (h : lv.get r c ≠ Cell.empty) :
    InBounds lv r c := by
  by_contra hc
  exact h (get_of_not_inBounds lv r c hc)

theorem inBounds_of_movable (lv : Level) (r c : Int)
    (h : (lv.get r c).type = CellType.MOVABLE) : InBounds lv r c := by
  apply inBounds_of_get_ne
  intro he
  rw [he] at h
  exact absurd h (by simp [Cell.empty])

theorem setCell_width (lv : Level) (r c : Int) (x : Cell) :
    (lv.setCell r c x).width = lv.width := by
  unfold Level.setCell
  split <;> rfl

theorem setCell_height (lv : Level) (r c : Int) (x : Cell) :
    (lv.setCell r c x).height = lv.height := by
  unfold Level.setCell
  split <;> rfl

theorem setCell_groups (lv : Level) (r c : Int) (x : Cell) :
    (lv.setCell r c x).groups = lv.groups := by
  unfold Level.setCell
  split <;> rfl

theorem get_setCell_self (lv : Level) (r c : Int) (x : Cell) (h : InBounds lv r c) :
    (lv.setCell r c x).get r c = x := by
  obtain ⟨hr, hc, hrl, hcl⟩ := h
  unfold Level.setCell Level.get
  simp only [hr, hc, and_self, if_true, List.getD_eq_getElem?_getD]
  rw [List.getElem?_set_self (by simpa using hrl)]
  simp only [Option.getD_some]
  rw [List.getElem?_set_self (by simpa [List.getD_eq_getElem?_getD] using hcl)]
  rfl

theorem get_setCell_empty (lv : Level) (r c : Int) :
    (lv.setCell r c Cell.empty).get r c = Cell.empty := by
  unfold Level.setCell Level.get
  by_cases h1 : 0 ≤ r ∧ 0 ≤ c
  · simp only [h1, and_self, if_true, List.getD_eq_getElem?_getD]
    rcases Nat.lt_or_ge r.toNat lv.grid.length with hl | hl
    · rw [List.getElem?_set_self (by simpa using hl)]
      simp only [Option.getD_some]
      rcases Nat.lt_or_ge c.toNat (lv.grid.getD r.toNat []).length with hcl | hcl
      · rw [List.getElem?_set_self (by simpa [List.getD_eq_getElem?_getD] using hcl)]
        rfl
      · rw [List.set_eq_of_length_le (by simpa [List.getD_eq_getElem?_getD] using hcl),
          List.getElem?_eq_none (by simpa [List.getD_eq_getElem?_getD] using hcl)]
        rfl
    · rw [List.set_eq_of_length_le hl, List.getElem?_eq_none hl]
      rfl
  · simp [h1]

theorem get_setCell_ne (lv : Level) (r c r2 c2 : Int) (x : Cell)
    (h : ¬ (r2 = r ∧ c2 = c)) : (lv.setCell r c x).get r2 c2 = lv.get r2 c2 := by
  unfold Level.setCell Level.get
  by_cases h1 : 0 ≤ r ∧ 0 ≤ c
  · simp only [h1, and_self, if_true]
    by_cases h2 : 0 ≤ r2 ∧ 0 ≤ c2
    · simp only [h2, and_self, if_true, List.getD_eq_getElem?_getD]
      rcases eq_or_ne r2 r with rfl | hrne
      · have hcne : c2 ≠ c := fun hh => h ⟨rfl, hh⟩
        have hcnat : c2.toNat ≠ c.toNat := by
          intro hh
          exact hcne (by omega)
        rcases Nat.lt_or_ge r2.toNat lv.grid.length with hl | hl
        · rw [List.getElem?_set_self (by simpa using hl)]
          simp only [Option.getD_some]
          rw [List.getElem?_set_ne (Ne.symm hcnat)]
        · rw [List.set_eq_of_length_le hl]
      · have hrnat : r2.toNat ≠ r.toNat := by
          intro hh
          exact hrne (by omega)
        rw [List.getElem?_set_ne (Ne.symm hrnat)]
    · simp [h2]
  · simp [h1]

theorem setCell_get_self (lv : Level) (r c : Int) :
    lv.setCell r c (lv.get r c) = lv := by
  unfold Level.setCell Level.get
  by_cases h1 : 0 ≤ r ∧ 0 ≤ c
  · obtain ⟨hr, hc⟩ := h1
    simp only [hr, hc, and_self, if_true]
    rw [list_set_getD, list_set_getD]
  · simp [h1]

theorem list_sum_map_set (l : List α) (n : Nat) (x : α) (f : α → Nat) (h : n < l.length) :
    ((l.set n x).map f).sum + f (l.getD n x) = (l.map f).sum + f x := by
  induction l generalizing n with
  | nil => simp at h
  | cons a as ih =>
    cases n with
    | zero => simp [List.set]; omega
    | succ m =>
      simp only [List.set, List.map_cons, List.sum_cons, List.getD_cons_succ]
      have := ih m (by simpa using h)
      omega

theorem list_countP_set_of (l : List α) (n : Nat) (x : α) (p : α → Bool)
    (h : n < l.length) (hl : p (l.getD n x) = true) (hx : p x = false) :
    List.countP p (l.set n x) + 1 = List.countP p l := by
  induction l generalizing n with
  | nil => simp at h
  | cons a as ih =>
    cases n with
    | zero =>
      simp only [List.getD_cons_zero] at hl
      simp only [List.set, List.countP_cons, hl, hx]
      simp
    | succ m =>
      simp only [List.getD_cons_succ] at hl
      simp only [List.set, List.countP_cons]
      have := ih m (by simpa using h) hl
      omega

theorem movableCount_setCell_empty (lv : Level) (r c : Int)
    (h : (lv.get r c).type = CellType.MOVABLE) :
    movableCount (lv.setCell r c Cell.empty) + 1 = movableCount lv := by
  obtain ⟨hr, hc, hrl, hcl⟩ := inBounds_of_movable lv r c h
  have hget : lv.get r c = (lv.grid.getD r.toNat []).getD c.toNat Cell.empty := by
    unfold Level.get
    simp [hr, hc]
  unfold movableCount Level.setCell
  simp only [hr, hc, and_self, if_true]
  have hsum := list_sum_map_set lv.grid r.toNat
    ((lv.grid.getD r.toNat []).set c.toNat Cell.empty)
    (fun rw2 => (rw2.filter fun x => decide (x.type = CellType.MOVABLE)).length) hrl
  simp only at hsum
  have hgd : lv.grid.getD r.toNat ((lv.grid.getD r.toNat []).set c.toNat Cell.empty) =
      lv.grid.getD r.toNat [] := by
    rw [List.getD_eq_getElem _ _ hrl, List.getD_eq_getElem _ _ hrl]
  rw [hgd] at hsum
  have h1 := list_countP_set_of (lv.grid.getD r.toNat []) c.toNat Cell.empty
    (fun x => decide (x.type = CellType.MOVABLE)) hcl
    (by rw [← hget]; simp [h]) (by simp [Cell.empty])
  rw [List.countP_eq_length_filter, List.countP_eq_length_filter] at h1
  omega

/-- `lv2` agrees with `lv` except that some movable cells have been cleared:
every cell still movable in `lv2` is unchanged from `lv`. -/
def Cleared (lv lv2 : Level) : Prop :=
  ∀ r c : Int, (lv2.get r c).type = CellType.MOVABLE → lv2.get r c = lv.get r c

theorem cleared_refl (lv : Level) : Cleared lv lv := fun _ _ _ => rfl

/-- Pointwise extensionality for levels: equal scalar fields, equal table
shape and equal cells give equal levels. -/
theorem level_ext (lv1 lv2 : Level) (hw : lv1.width = lv2.width)
    (hh : lv1.height = lv2.height) (hg : lv1.groups = lv2.groups)
    (hlen : lv1.grid.length = lv2.grid.length)
    (hrow : ∀ n : Nat, (lv1.grid.getD n []).length = (lv2.grid.getD n []).length)
    (hget : ∀ r c : Int, 0 ≤ r → 0 ≤ c → lv1.get r c = lv2.get r c) : lv1 = lv2 := by
  obtain ⟨w1, h1, g1, t1⟩ := lv1
  obtain ⟨w2, h2, g2, t2⟩ := lv2
  simp only at hw hh hg hlen hrow
  subst hw hh hg
  simp only [Level.mk.injEq, true_and]
  apply List.ext_getElem hlen
  intro n hn1 hn2
  have hrn := hrow n
  rw [List.getD_eq_getElem _ _ hn1, List.getD_eq_getElem _ _ hn2] at hrn
  apply List.ext_getElem hrn
  intro m hm1 hm2
  have := hget (n : Int) (m : Int) (by omega) (by omega)
  unfold Level.get at this
  simp only [Int.toNat_natCast, le_refl, Int.natCast_nonneg, and_self, if_true] at this
  rwa [List.getD_eq_getElem _ _ hn1, List.getD_eq_getElem _ _ hn2,
    List.getD_eq_getElem _ _ hm1, List.getD_eq_getElem _ _ hm2] at this

/-! ### The recorded points of a grab -/

/-- `lv2` is obtained from `lv` by clearing, in order, the recorded points:
each recorded cell holds the grid value at its coordinate at the time it is
cleared and is movable at that time. -/
def NewPts (lv : Level) : List ((Int × Int) × Cell) → Level → Prop
  | [], lv2 => lv2 = lv
  | (p, cl) :: rest, lv2 =>
    cl = lv.get p.1 p.2 ∧ cl.type = CellType.MOVABLE ∧
      NewPts (lv.setCell p.1 p.2 Cell.empty) rest lv2

theorem newPts_append {lv lv1 lv2 : Level} {a b : List ((Int × Int) × Cell)}
    (ha : NewPts lv a lv1) (hb : NewPts lv1 b lv2) : NewPts lv (a ++ b) lv2 := by
  induction a generalizing lv with
  | nil => rw [NewPts] at ha; subst ha; simpa using hb
  | cons pc rest ih =>
    obtain ⟨p, cl⟩ := pc
    obtain ⟨h1, h2, h3⟩ := ha
    exact ⟨h1, h2, ih h3⟩

theorem list_getD_set_len (grid : List (List Cell)) (rn : Nat) (row2 : List Cell)
    (hrow : row2.length = (grid.getD rn []).length) (n : Nat) :
    ((grid.set rn row2).getD n []).length = (grid.getD n []).length := by
  rcases eq_or_ne n rn with rfl | hne
  · rcases Nat.lt_or_ge n grid.length with hl | hl
    · rw [List.getD_eq_getElem _ _ (by simpa using hl), List.getElem_set_self, hrow]
    · rw [List.set_eq_of_length_le hl]
  · simp only [List.getD_eq_getElem?_getD]
    rw [List.getElem?_set_ne (by omega)]

theorem setCell_grid_length (lv : Level) (r c : Int) (x : Cell) :
    (lv.setCell r c x).grid.length = lv.grid.length := by
  unfold Level.setCell
  split
  · simp [List.length_set]
  · rfl

theorem setCell_row_length (lv : Level) (r c : Int) (x : Cell) (n : Nat) :
    ((lv.setCell r c x).grid.getD n []).length = (lv.grid.getD n []).length := by
  unfold Level.setCell
  split
  · exact list_getD_set_len lv.grid r.toNat _ (List.length_set _ _ _) n
  · rfl

theorem inBounds_setCell (lv : Level) (r c a b : Int) (x : Cell) :
    InBounds (lv.setCell r c x) a b ↔ InBounds lv a b := by
  unfold InBounds
  rw [setCell_grid_length, setCell_row_length]

theorem newPts_frame {lv lv2 : Level} {a : List ((Int × Int) × Cell)}
    (h : NewPts lv a lv2) :
    lv2.width = lv.width ∧ lv2.height = lv.height ∧ lv2.groups = lv.groups ∧
      lv2.grid.length = lv.grid.length ∧
      ∀ n : Nat, (lv2.grid.getD n []).length = (lv.grid.getD n []).length := by
  induction a generalizing lv with
  | nil => rw [NewPts] at h; subst h; exact ⟨rfl, rfl, rfl, rfl, fun _ => rfl⟩
  | cons pc rest ih =>
    obtain ⟨p, cl⟩ := pc
    obtain ⟨_, _, h3⟩ := h
    obtain ⟨w, hh, g, len, row⟩ := ih h3
    refine ⟨by rwa [setCell_width] at w, by rwa [setCell_height] at hh,
      by rwa [setCell_groups] at g, ?_,
      fun n => by rw [row n, setCell_row_length]⟩
    rw [len, setCell_grid_length]

theorem newPts_mem {lv lv2 : Level} {a : List ((Int × Int) × Cell)}
    (h : NewPts lv a lv2) :
    ∀ pc ∈ a, pc.2 = lv.get pc.1.1 pc.1.2 ∧ pc.2.type = CellType.MOVABLE := by
  induction a generalizing lv with
  | nil => intro pc hm; simp at hm
  | cons qc rest ih =>
    obtain ⟨q, cl⟩ := qc
    obtain ⟨h1, h2, h3⟩ := h
    intro pc hm
    rcases List.mem_cons.mp hm with rfl | hm2
    · exact ⟨h1, h2⟩
    · obtain ⟨hv, hmv⟩ := ih h3 pc hm2
      refine ⟨?_, hmv⟩
      rcases eq_or_ne pc.1 q with heq | hne
      · rw [heq, get_setCell_empty] at hv
        rw [hv] at hmv
        exact absurd hmv (by simp [Cell.empty])
      · rw [hv, get_setCell_ne]
        intro hcon
        exact hne (Prod.ext_iff.mpr ⟨hcon.1, hcon.2⟩)

theorem newPts_get_notin {lv lv2 : Level} {a : List ((Int × Int) × Cell)}
    (h : NewPts lv a lv2) (r c : Int) (hq : (r, c) ∉ a.map Prod.fst) :
    lv2.get r c = lv.get r c := by
  induction a generalizing lv with
  | nil => rw [NewPts] at h; subst h; rfl
  | cons qc rest ih =>
    obtain ⟨q, cl⟩ := qc
    obtain ⟨h1, h2, h3⟩ := h
    simp only [List.map_cons, List.mem_cons] at hq
    push_neg at hq
    rw [ih h3 (by simpa using hq.2), get_setCell_ne]
    intro hcon
    exact hq.1 (Prod.ext_iff.mpr ⟨hcon.1, hcon.2⟩)

theorem newPts_get_in {lv lv2 : Level} {a : List ((Int × Int) × Cell)}
    (h : NewPts lv a lv2) (r c : Int) (hq : (r, c) ∈ a.map Prod.fst) :
    lv2.get r c = Cell.empty := by
  induction a generalizing lv with
  | nil => simp at hq
  | cons qc rest ih =>
    obtain ⟨q, cl⟩ := qc
    obtain ⟨h1, h2, h3⟩ := h
    by_cases hm : (r, c) ∈ rest.map Prod.fst
    · exact ih h3 hm
    · simp only [List.map_cons, List.mem_cons] at hq
      rcases hq with heq | hm2
      · rw [newPts_get_notin h3 r c hm]
        subst heq
        exact get_setCell_empty lv r c
      · exact absurd hm2 hm

theorem newPts_cleared {lv lv2 : Level} {a : List ((Int × Int) × Cell)}
    (h : NewPts lv a lv2) : Cleared lv lv2 := by
  intro r c hmv
  by_cases hm : (r, c) ∈ a.map Prod.fst
  · rw [newPts_get_in h r c hm] at hmv
    exact absurd hmv (by simp [Cell.empty])
  · exact newPts_get_notin h r c hm

theorem newPts_nodup {lv lv2 : Level} {a : List ((Int × Int) × Cell)}
    (h : NewPts lv a lv2) : (a.map Prod.fst).Nodup := by
  induction a generalizing lv with
  | nil => simp
  | cons qc rest ih =>
    obtain ⟨q, cl⟩ := qc
    obtain ⟨h1, h2, h3⟩ := h
    simp only [List.map_cons, List.nodup_cons]
    refine ⟨?_, ih h3⟩
    intro hmem
    obtain ⟨pc, hpc, hfst⟩ := List.mem_map.mp hmem
    obtain ⟨hv, hmv⟩ := newPts_mem h3 pc hpc
    rw [hfst] at hv
    rw [get_setCell_empty] at hv
    rw [hv] at hmv
    exact absurd hmv (by simp [Cell.empty])

theorem newPts_movableCount {lv lv2 : Level} {a : List ((Int × Int) × Cell)}
    (h : NewPts lv a lv2) : movableCount lv2 + a.length = movableCount lv := by
  induction a generalizing lv with
  | nil => rw [NewPts] at h; subst h; rfl
  | cons qc rest ih =>
    obtain ⟨q, cl⟩ := qc
    obtain ⟨h1, h2, h3⟩ := h
    have hdec := movableCount_setCell_empty lv q.1 q.2 (by rw [← h1]; exact h2)
    have := ih h3
    simp only [List.length_cons]
    omega

/-! ### The place step -/

theorem placeAll_frame (lv : Level) (pts : List ((Int × Int) × Cell)) (dr dc : Int) :
    (placeAll lv pts dr dc).1.width = lv.width ∧
    (placeAll lv pts dr dc).1.height = lv.height ∧
    (placeAll lv pts dr dc).1.groups = lv.groups := by
  induction pts generalizing lv with
  | nil => exact ⟨rfl, rfl, rfl⟩
  | cons qc rest ih =>
    obtain ⟨⟨r, c⟩, cl⟩ := qc
    simp only [placeAll]
    obtain ⟨a, b, d⟩ := ih (lv.setCell (r + dr) (c + dc) cl)
    exact ⟨by rw [a, setCell_width], by rw [b, setCell_height], by rw [d, setCell_groups]⟩

theorem placeAll_get_notin (lv : Level) (pts : List ((Int × Int) × Cell)) (dr dc : Int)
    (r c : Int) (hq : ∀ pc ∈ pts, ¬ (r = pc.1.1 + dr ∧ c = pc.1.2 + dc)) :
    (placeAll lv pts dr dc).1.get r c = lv.get r c := by
  induction pts generalizing lv with
  | nil => rfl
  | cons qc rest ih =>
    obtain ⟨⟨r1, c1⟩, cl⟩ := qc
    simp only [placeAll]
    rw [ih _ (fun pc hm => hq pc (List.mem_cons_of_mem _ hm)), get_setCell_ne]
    exact hq ((r1, c1), cl) (List.mem_cons_self _ _)

theorem placeAll_get_mem (lv : Level) (pts : List ((Int × Int) × Cell)) (dr dc : Int)
    (hnd : (pts.map Prod.fst).Nodup)
    (hib : ∀ pc ∈ pts, InBounds lv (pc.1.1 + dr) (pc.1.2 + dc)) :
    ∀ pc ∈ pts, (placeAll lv pts dr dc).1.get (pc.1.1 + dr) (pc.1.2 + dc) = pc.2 := by
  induction pts generalizing lv with
  | nil => intro pc hm; simp at hm
  | cons qc rest ih =>
    obtain ⟨⟨r1, c1⟩, cl⟩ := qc
    intro pc hm
    simp only [placeAll]
    rcases List.mem_cons.mp hm with rfl | hm2
    · simp only
      rw [placeAll_get_notin]
      · exact get_setCell_self _ _ _ _ (hib _ (List.mem_cons_self _ _))
      · intro pc2 hm2 hcon
        simp only [List.map_cons, List.nodup_cons] at hnd
        apply hnd.1
        have : pc2.1.1 = r1 ∧ pc2.1.2 = c1 := by omega
        rw [← this.1, ← this.2]
        exact List.mem_map.mpr ⟨pc2, hm2, rfl⟩
    · have hib2 : ∀ pc2 ∈ rest, InBounds (lv.setCell (r1 + dr) (c1 + dc) cl)
          (pc2.1.1 + dr) (pc2.1.2 + dc) := by
        intro pc2 hmm
        rw [inBounds_setCell]
        exact hib pc2 (List.mem_cons_of_mem _ hmm)
      simp only [List.map_cons, List.nodup_cons] at hnd
      exact ih _ hnd.2 hib2 pc hm2

theorem placeAll_length (lv : Level) (pts : List ((Int × Int) × Cell)) (dr dc : Int) :
    (placeAll lv pts dr dc).1.grid.length = lv.grid.length ∧
    ∀ n : Nat, ((placeAll lv pts dr dc).1.grid.getD n []).length = (lv.grid.getD n []).length := by
  induction pts generalizing lv with
  | nil => exact ⟨rfl, fun _ => rfl⟩
  | cons qc rest ih =>
    obtain ⟨⟨r, c⟩, cl⟩ := qc
    simp only [placeAll]
    obtain ⟨a, b⟩ := ih (lv.setCell (r + dr) (c + dc) cl)
    exact ⟨by rw [a, setCell_grid_length], fun n => by rw [b n, setCell_row_length]⟩

/-- Level equality via `InBounds` transfer: grids with matching shape have
the same in-bounds predicate. -/
theorem inBounds_of_shape {lv lv2 : Level} (r c : Int)
    (hlen : lv2.grid.length = lv.grid.length)
    (hrow : ∀ n : Nat, (lv2.grid.getD n []).length = (lv.grid.getD n []).length)
    (h : InBounds lv r c) : InBounds lv2 r c := by
  obtain ⟨a, b, d, e⟩ := h
  exact ⟨a, b, by rw [hlen]; exact d, by rw [hrow]; exact e⟩

/-- Writing every recorded point back at delta zero restores the original
grid exactly. -/
theorem newPts_restore {lv lv2 : Level} {new : List ((Int × Int) × Cell)}
    (h : NewPts lv new lv2) : (placeAll lv2 new 0 0).1 = lv := by
  obtain ⟨hw, hh, hg, hlen, hrow⟩ := newPts_frame h
  obtain ⟨pw, ph, pg⟩ := placeAll_frame lv2 new 0 0
  obtain ⟨plen, prow⟩ := placeAll_length lv2 new 0 0
  apply level_ext
  · rw [pw, hw]
  · rw [ph, hh]
  · rw [pg, hg]
  · rw [plen, hlen]
  · intro n
    rw [prow n, hrow n]
  · intro r c _ _
    by_cases hm : (r, c) ∈ new.map Prod.fst
    · obtain ⟨pc, hpc, hfst⟩ := List.mem_map.mp hm
      obtain ⟨hval, hmv⟩ := newPts_mem h pc hpc
      have hib : ∀ pc2 ∈ new, InBounds lv2 (pc2.1.1 + 0) (pc2.1.2 + 0) := by
        intro pc2 hm2
        obtain ⟨hval2, hmv2⟩ := newPts_mem h pc2 hm2
        have : InBounds lv pc2.1.1 pc2.1.2 := by
          apply inBounds_of_movable
          rw [← hval2]
          exact hmv2
        simpa using inBounds_of_shape _ _ hlen hrow this
      have := placeAll_get_mem lv2 new 0 0 (newPts_nodup h) hib pc hpc
      rw [hfst] at this hval
      simpa using this.trans hval
    · rw [placeAll_get_notin]
      · exact newPts_get_notin h r c hm
      · intro pc hpc hcon
        apply hm
        have heq : (r, c) = pc.1 := Prod.ext_iff.mpr ⟨by omega, by omega⟩
        rw [heq]
        exact List.mem_map.mpr ⟨pc, hpc, rfl⟩

/-! ### The shape of a grab: accumulated points and cleared grid -/

theorem grabDirs_shape_of
    (sub : Level → List ((Int × Int) × Cell) → Int → Int → Int → Int →
      List ((Int × Int) × Cell) × Level × Bool)
    (hmov : ∀ lv pts r c dr dc, (lv.get r c).type = CellType.MOVABLE →
      ∃ new, (sub lv pts r c dr dc).1 = pts ++ new ∧
        NewPts lv new (sub lv pts r c dr dc).2.1) :
    ∀ ds lv pts r c dr dc g, ∃ new, (grabDirsGo sub lv pts r c dr dc g ds).1 = pts ++ new ∧
      NewPts lv new (grabDirsGo sub lv pts r c dr dc g ds).2.1 := by
  intro ds
  induction ds with
  | nil =>
    intro lv pts r c dr dc g
    exact ⟨[], by simp [grabDirsGo], by simp [grabDirsGo, NewPts]⟩
  | cons d rest ih =>
    intro lv pts r c dr dc g
    obtain ⟨ddr, ddc⟩ := d
    rw [grabDirsGo]
    by_cases hd : ddr = dr ∧ ddc = dc
    · rw [if_pos hd]
      by_cases hw : (lv.get (r + ddr) (c + ddc)).type = CellType.WALL
      · rw [if_pos hw]
        exact ⟨[], by simp, by simp [NewPts]⟩
      · rw [if_neg hw]
        by_cases hm : (lv.get (r + ddr) (c + ddc)).type = CellType.MOVABLE
        · rw [if_pos hm]
          obtain ⟨newA, hA1, hA2⟩ := hmov lv pts (r + ddr) (c + ddc) dr dc hm
          rcases hg : sub lv pts (r + ddr) (c + ddc) dr dc with ⟨pts2, lv2, b⟩
          rw [hg] at hA1 hA2
          simp only at hA1 hA2
          cases b
          · simpa using ⟨newA, hA1, hA2⟩
          · simp only
            obtain ⟨newB, hB1, hB2⟩ := ih lv2 pts2 r c dr dc g
            exact ⟨newA ++ newB, by rw [hB1, hA1, List.append_assoc],
              newPts_append hA2 hB2⟩
        · rw [if_neg hm]
          exact ih lv pts r c dr dc g
    · rw [if_neg hd]
      by_cases hm : (lv.get (r + ddr) (c + ddc)).type = CellType.MOVABLE ∧
          (lv.get (r + ddr) (c + ddc)).group = g
      · rw [if_pos hm]
        obtain ⟨newA, hA1, hA2⟩ := hmov lv pts (r + ddr) (c + ddc) dr dc hm.1
        rcases hg : sub lv pts (r + ddr) (c + ddc) dr dc with ⟨pts2, lv2, b⟩
        rw [hg] at hA1 hA2
        simp only at hA1 hA2
        cases b
        · simpa using ⟨newA, hA1, hA2⟩
        · simp only
          obtain ⟨newB, hB1, hB2⟩ := ih lv2 pts2 r c dr dc g
          exact ⟨newA ++ newB, by rw [hB1, hA1, List.append_assoc],
            newPts_append hA2 hB2⟩
      · rw [if_neg hm]
        exact ih lv pts r c dr dc g

theorem grab_shape (fuel : Nat) :
    ∀ lv pts r c dr dc, (lv.get r c).type = CellType.MOVABLE →
      ∃ new, (grabRecord fuel lv pts r c dr dc).1 = pts ++ new ∧
        NewPts lv new (grabRecord fuel lv pts r c dr dc).2.1 := by
  induction fuel with
  | zero =>
    intro lv pts r c dr dc _
    exact ⟨[], by simp [grabRecord], by simp [grabRecord, NewPts]⟩
  | succ fuel ih =>
    intro lv pts r c dr dc hmv
    rw [grabRecord]
    obtain ⟨new1, h1, h2⟩ := grabDirs_shape_of (grabRecord fuel) ih dirs
      (lv.setCell r c Cell.empty)
      (pts ++ [((r, c), lv.get r c)]) r c dr dc (lv.get r c).group
    refine ⟨((r, c), lv.get r c) :: new1, ?_, rfl, hmv, h2⟩
    rw [h1, List.append_assoc]
    rfl

theorem grabDirs_shape (fuel : Nat) :
    ∀ ds lv pts r c dr dc g,
      ∃ new, (grabDirsGo (grabRecord fuel) lv pts r c dr dc g ds).1 = pts ++ new ∧
        NewPts lv new (grabDirsGo (grabRecord fuel) lv pts r c dr dc g ds).2.1 :=
  grabDirs_shape_of (grabRecord fuel) (grab_shape fuel)

/-! ### The `Point::Narrow` bridge

`GrabMovable` stores each recorded coordinate pair through `Point::Narrow`,
a `uint8_t` cast of each component (the value modulo 256).  The narrowed
recursion `grabMovable` and the full-precision recursion `grabRecord`
differ only in that record; here we prove they return the same grid and
flag, and point lists related by the pointwise narrowing, and that on
grids whose coordinates all fit in eight bits the two coincide exactly. -/

/-- `Point::Narrow` on a recorded point: both coordinates reduced
modulo 256 (the `uint8_t` casts), the cell unchanged. -/
def narrowPt (pc : (Int × Int) × Cell) : (Int × Int) × Cell :=
  ((pc.1.1 % 256, pc.1.2 % 256), pc.2)

/-- Every coordinate of the grid table is below 256, so the `uint8_t`
narrowing of any in-bounds coordinate is the identity.  This holds for
every level whose grid has at most 256 rows of at most 256 cells each. -/
def Fits8 (lv : Level) : Prop :=
  lv.grid.length ≤ 256 ∧ ∀ row ∈ lv.grid, row.length ≤ 256

instance : DecidablePred Fits8 := fun lv => by
  unfold Fits8
  infer_instance

theorem narrowPt_eq_self {lv : Level} (hs : Fits8 lv) (pc : (Int × Int) × Cell)
    (hib : InBounds lv pc.1.1 pc.1.2) : narrowPt pc = pc := by
  obtain ⟨h0r, h0c, hr, hc⟩ := hib
  have hlen : lv.grid.length ≤ 256 := hs.1
  have hrow : (lv.grid.getD pc.1.1.toNat []).length ≤ 256 := by
    have hmem : lv.grid.getD pc.1.1.toNat [] ∈ lv.grid := by
      rw [List.getD_eq_getElem _ _ hr]
      apply List.getElem_mem
    exact hs.2 _ hmem
  have hr2 : pc.1.1 < 256 := by omega
  have hc2 : pc.1.2 < 256 := by omega
  unfold narrowPt
  rw [Int.emod_eq_of_lt h0r hr2, Int.emod_eq_of_lt h0c hc2]

/-- The direction loop with a narrowing-related recursive call returns the
narrowed point list and the same grid and flag. -/
theorem grabDirsGo_narrow
    (sub subN : Level → List ((Int × Int) × Cell) → Int → Int → Int → Int →
      List ((Int × Int) × Cell) × Level × Bool)
    (hsub : ∀ lv pts r c dr dc,
      subN lv (pts.map narrowPt) r c dr dc =
        ((sub lv pts r c dr dc).1.map narrowPt, (sub lv pts r c dr dc).2)) :
    ∀ ds lv pts r c dr dc g,
      grabDirsGo subN lv (pts.map narrowPt) r c dr dc g ds =
        ((grabDirsGo sub lv pts r c dr dc g ds).1.map narrowPt,
         (grabDirsGo sub lv pts r c dr dc g ds).2) := by
  intro ds
  induction ds with
  | nil =>
    intro lv pts r c dr dc g
    simp [grabDirsGo]
  | cons d rest ih =>
    intro lv pts r c dr dc g
    obtain ⟨ddr, ddc⟩ := d
    rw [grabDirsGo, grabDirsGo]
    by_cases hd : ddr = dr ∧ ddc = dc
    · rw [if_pos hd, if_pos hd]
      by_cases hw : (lv.get (r + ddr) (c + ddc)).type = CellType.WALL
      · rw [if_pos hw, if_pos hw]
      · rw [if_neg hw, if_neg hw]
        by_cases hm : (lv.get (r + ddr) (c + ddc)).type = CellType.MOVABLE
        · rw [if_pos hm, if_pos hm]
          rcases hg : sub lv pts (r + ddr) (c + ddc) dr dc with ⟨pts2, lv2, b⟩
          have hgN := hsub lv pts (r + ddr) (c + ddc) dr dc
          rw [hg] at hgN
          rw [hgN]
          cases b
          · rfl
          · exact ih lv2 pts2 r c dr dc g
        · rw [if_neg hm, if_neg hm]
          exact ih lv pts r c dr dc g
    · rw [if_neg hd, if_neg hd]
      by_cases hm : (lv.get (r + ddr) (c + ddc)).type = CellType.MOVABLE ∧
          (lv.get (r + ddr) (c + ddc)).group = g
      · rw [if_pos hm, if_pos hm]
        rcases hg : sub lv pts (r + ddr) (c + ddc) dr dc with ⟨pts2, lv2, b⟩
        have hgN := hsub lv pts (r + ddr) (c + ddc) dr dc
        rw [hg] at hgN
        rw [hgN]
        cases b
        · rfl
        · exact ih lv2 pts2 r c dr dc g
      · rw [if_neg hm, if_neg hm]
        exact ih lv pts r c dr dc g

/-- The narrowed grab returns the pointwise-narrowed point list and the
same grid and flag as the full-precision grab. -/
theorem grab_narrow (fuel : Nat) :
    ∀ lv pts r c dr dc,
      grabMovable fuel lv (pts.map narrowPt) r c dr dc =
        ((grabRecord fuel lv pts r c dr dc).1.map narrowPt,
         (grabRecord fuel lv pts r c dr dc).2) := by
  induction fuel with
  | zero =>
    intro lv pts r c dr dc
    rfl
  | succ fuel ih =>
    intro lv pts r c dr dc
    have hacc : pts.map narrowPt ++ [((r % 256, c % 256), lv.get r c)] =
        (pts ++ [((r, c), lv.get r c)]).map narrowPt := by
      rw [List.map_append]
      rfl
    show grabDirsGo (grabMovable fuel) (lv.setCell r c Cell.empty)
        (pts.map narrowPt ++ [((r % 256, c % 256), lv.get r c)]) r c dr dc
        (lv.get r c).group dirs = _
    rw [hacc]
    exact grabDirsGo_narrow (grabRecord fuel) (grabMovable fuel) ih dirs
      (lv.setCell r c Cell.empty) (pts ++ [((r, c), lv.get r c)]) r c dr dc
      (lv.get r c).group

/-- On a level whose coordinates all fit in eight bits, the narrowed grab
at a movable cell coincides exactly with the full-precision grab. -/
theorem grab_eq_of_fits (lv : Level) (r c dr dc : Int)
    (hmv : (lv.get r c).type = CellType.MOVABLE) (hs : Fits8 lv) :
    grabMovable (movableCount lv + 1) lv [] r c dr dc =
      grabRecord (movableCount lv + 1) lv [] r c dr dc := by
  obtain ⟨new, h1, h2⟩ := grab_shape (movableCount lv + 1) lv [] r c dr dc hmv
  simp only [List.nil_append] at h1
  have hid : new.map narrowPt = new := by
    conv_rhs => rw [← List.map_id new]
    apply List.map_congr_left
    intro pc hpc
    obtain ⟨hval, hmv2⟩ := newPts_mem h2 pc hpc
    show narrowPt pc = pc
    refine narrowPt_eq_self hs pc (inBounds_of_movable lv pc.1.1 pc.1.2 ?_)
    rw [← hval]
    exact hmv2
  have hN := grab_narrow (movableCount lv + 1) lv [] r c dr dc
  simp only [List.map_nil] at hN
  rw [hN, h1, hid, ← h1]

theorem tryMove_eq_of_fits (lv : Level) (r c dr dc : Int)
    (hmv : (lv.get r c).type = CellType.MOVABLE) (hs : Fits8 lv) :
    tryMove lv r c dr dc = tryMoveR lv r c dr dc := by
  unfold tryMove tryMoveR
  rw [grab_eq_of_fits lv r c dr dc hmv hs]

theorem tryMoveAssertOk_eq_of_fits (lv : Level) (r c dr dc : Int)
    (hmv : (lv.get r c).type = CellType.MOVABLE) (hs : Fits8 lv) :
    tryMoveAssertOk lv r c dr dc = tryMoveAssertOkR lv r c dr dc := by
  unfold tryMoveAssertOk tryMoveAssertOkR
  rw [grab_eq_of_fits lv r c dr dc hmv hs]

/-- The success flag is computed by the grab recursion itself, before any
recorded point is read back, so it never depends on the narrowing. -/
theorem tryMove_fst_eq (lv : Level) (r c dr dc : Int) :
    (tryMove lv r c dr dc).1 = (tryMoveR lv r c dr dc).1 := by
  show (grabMovable (movableCount lv + 1) lv [] r c dr dc).2.2 =
    (grabRecord (movableCount lv + 1) lv [] r c dr dc).2.2
  have hN := grab_narrow (movableCount lv + 1) lv [] r c dr dc
  simp only [List.map_nil] at hN
  rw [hN]

/-! ### Rollback exactness -/

theorem tryMoveR_fst (lv : Level) (r c dr dc : Int) :
    (tryMoveR lv r c dr dc).1 = (grabRecord (movableCount lv + 1) lv [] r c dr dc).2.2 :=
  rfl

theorem tryMoveR_def (lv : Level) (r c dr dc : Int) :
    tryMoveR lv r c dr dc =
      ((grabRecord (movableCount lv + 1) lv [] r c dr dc).2.2,
       (placeAll (grabRecord (movableCount lv + 1) lv [] r c dr dc).2.1
         (grabRecord (movableCount lv + 1) lv [] r c dr dc).1
         (if (grabRecord (movableCount lv + 1) lv [] r c dr dc).2.2 = true
           then (dr, dc) else ((0 : Int), (0 : Int))).1
         (if (grabRecord (movableCount lv + 1) lv [] r c dr dc).2.2 = true
           then (dr, dc) else ((0 : Int), (0 : Int))).2).1) :=
  rfl

theorem tryMoveR_snd_true (lv : Level) (r c dr dc : Int)
    (h : (grabRecord (movableCount lv + 1) lv [] r c dr dc).2.2 = true) :
    (tryMoveR lv r c dr dc).2 =
      (placeAll (grabRecord (movableCount lv + 1) lv [] r c dr dc).2.1
        (grabRecord (movableCount lv + 1) lv [] r c dr dc).1 dr dc).1 := by
  rw [tryMoveR_def, h]
  simp

theorem tryMoveR_snd_false (lv : Level) (r c dr dc : Int)
    (h : (grabRecord (movableCount lv + 1) lv [] r c dr dc).2.2 = false) :
    (tryMoveR lv r c dr dc).2 =
      (placeAll (grabRecord (movableCount lv + 1) lv [] r c dr dc).2.1
        (grabRecord (movableCount lv + 1) lv [] r c dr dc).1 0 0).1 := by
  rw [tryMoveR_def, h]
  simp

/-- `TryMove` failure leaves the grid exactly as it was (claim C2's core). -/
theorem tryMoveR_rollback (lv : Level) (r c dr dc : Int)
    (hmv : (lv.get r c).type = CellType.MOVABLE)
    (hfail : (tryMoveR lv r c dr dc).1 = false) : (tryMoveR lv r c dr dc).2 = lv := by
  rw [tryMoveR_fst] at hfail
  rw [tryMoveR_snd_false lv r c dr dc hfail]
  obtain ⟨new, h1, h2⟩ := grab_shape (movableCount lv + 1) lv [] r c dr dc hmv
  have h1n : (grabRecord (movableCount lv + 1) lv [] r c dr dc).1 = new := by
    simpa using h1
  rw [h1n]
  exact newPts_restore h2

theorem tryMoveR_frame (lv : Level) (r c dr dc : Int)
    (hmv : (lv.get r c).type = CellType.MOVABLE) :
    (tryMoveR lv r c dr dc).2.width = lv.width ∧
    (tryMoveR lv r c dr dc).2.height = lv.height ∧
    (tryMoveR lv r c dr dc).2.groups = lv.groups ∧
    (tryMoveR lv r c dr dc).2.grid.length = lv.grid.length ∧
    ∀ n : Nat, ((tryMoveR lv r c dr dc).2.grid.getD n []).length = (lv.grid.getD n []).length := by
  obtain ⟨new, h1, h2⟩ := grab_shape (movableCount lv + 1) lv [] r c dr dc hmv
  obtain ⟨hw, hh, hgr, hlen, hrow⟩ := newPts_frame h2
  rcases hb : (grabRecord (movableCount lv + 1) lv [] r c dr dc).2.2 with _ | _
  · rw [tryMoveR_snd_false lv r c dr dc hb]
    obtain ⟨pw, ph, pg⟩ := placeAll_frame (grabRecord (movableCount lv + 1) lv [] r c dr dc).2.1
      (grabRecord (movableCount lv + 1) lv [] r c dr dc).1 0 0
    obtain ⟨plen, prow⟩ := placeAll_length (grabRecord (movableCount lv + 1) lv [] r c dr dc).2.1
      (grabRecord (movableCount lv + 1) lv [] r c dr dc).1 0 0
    exact ⟨by rw [pw, hw], by rw [ph, hh], by rw [pg, hgr], by rw [plen, hlen],
      fun n => by rw [prow n, hrow n]⟩
  · rw [tryMoveR_snd_true lv r c dr dc hb]
    obtain ⟨pw, ph, pg⟩ := placeAll_frame (grabRecord (movableCount lv + 1) lv [] r c dr dc).2.1
      (grabRecord (movableCount lv + 1) lv [] r c dr dc).1 dr dc
    obtain ⟨plen, prow⟩ := placeAll_length (grabRecord (movableCount lv + 1) lv [] r c dr dc).2.1
      (grabRecord (movableCount lv + 1) lv [] r c dr dc).1 dr dc
    exact ⟨by rw [pw, hw], by rw [ph, hh], by rw [pg, hgr], by rw [plen, hlen],
      fun n => by rw [prow n, hrow n]⟩

theorem moveGroup_none (lv : Level) (g : Nat) (dr dc : Int)
    (h : (interiorScan lv.height lv.width).find?
      (fun p => decide ((lv.get p.1 p.2).group = g)) = none) :
    moveGroup lv g dr dc = (false, lv) := by
  unfold moveGroup
  rw [h]

theorem moveGroup_some (lv : Level) (g : Nat) (dr dc : Int) (p : Int × Int)
    (h : (interiorScan lv.height lv.width).find?
      (fun q => decide ((lv.get q.1 q.2).group = g)) = some p) :
    moveGroup lv g dr dc =
      if (tryMove lv p.1 p.2 dr dc).1 then
        (true, updateConnections (dropDown (tryMove lv p.1 p.2 dr dc).2))
      else (false, (tryMove lv p.1 p.2 dr dc).2) := by
  unfold moveGroup
  rw [h]

theorem moveGroup_fail_eq (lv : Level) (g : Nat) (dr dc : Int)
    (hfit : Fits8 lv)
    (hmv : ∀ p ∈ interiorScan lv.height lv.width,
      (lv.get p.1 p.2).group = g → (lv.get p.1 p.2).type = CellType.MOVABLE)
    (hfail : (moveGroup lv g dr dc).1 = false) :
    (moveGroup lv g dr dc).2 = lv := by
  rcases hf : (interiorScan lv.height lv.width).find?
      (fun q => decide ((lv.get q.1 q.2).group = g)) with _ | p
  · rw [moveGroup_none lv g dr dc hf]
  · rw [moveGroup_some lv g dr dc p hf] at hfail ⊢
    have hpg : (lv.get p.1 p.2).group = g := by
      have := List.find?_some hf
      simpa using this
    have hpmem : p ∈ interiorScan lv.height lv.width := List.mem_of_find?_eq_some hf
    have hpmv : (lv.get p.1 p.2).type = CellType.MOVABLE := hmv p hpmem hpg
    rw [tryMove_eq_of_fits lv p.1 p.2 dr dc hpmv hfit] at hfail ⊢
    by_cases hb : (tryMoveR lv p.1 p.2 dr dc).1 = true
    · rw [if_pos hb] at hfail
      simp at hfail
    · have hb2 : (tryMoveR lv p.1 p.2 dr dc).1 = false := by
        simpa using hb
      rw [if_neg hb]
      exact tryMoveR_rollback lv p.1 p.2 dr dc hpmv hb2

/-! ### Success facts of a grab: collision-free destinations and closure -/

theorem newPts_pos_movable {lv lv2 : Level} {new : List ((Int × Int) × Cell)}
    (h : NewPts lv new lv2) {q : Int × Int} (hq : q ∈ new.map Prod.fst) :
    (lv.get q.1 q.2).type = CellType.MOVABLE := by
  obtain ⟨pc, hpc, rfl⟩ := List.mem_map.mp hq
  obtain ⟨hv, hmv⟩ := newPts_mem h pc hpc
  rw [hv] at hmv
  exact hmv

theorem newPts_wall_iff {lv lv2 : Level} {new : List ((Int × Int) × Cell)}
    (h : NewPts lv new lv2) (a b : Int) :
    ((lv2.get a b).type = CellType.WALL ↔ (lv.get a b).type = CellType.WALL) := by
  by_cases hm : (a, b) ∈ new.map Prod.fst
  · rw [newPts_get_in h a b hm]
    have hmv := newPts_pos_movable h hm
    simp only at hmv
    constructor
    · intro hc
      exact absurd hc (by simp [Cell.empty])
    · intro hc
      rw [hmv] at hc
      exact absurd hc (by simp)
  · rw [newPts_get_notin h a b hm]

/-- The cells grabbed from `p` in one step: the push-direction neighbor when
it is movable, and a movable neighbor in another direction with the same
group as `p`.  This is the link relation whose reflexive-transitive closure
is the transitively grabbed set of the specification. -/
def LinkL (lv : Level) (dr dc : Int) (p q : Int × Int) : Prop :=
  (lv.get q.1 q.2).type = CellType.MOVABLE ∧
    (q = (p.1 + dr, p.2 + dc) ∨
      ∃ d ∈ dirs, q = (p.1 + d.1, p.2 + d.2) ∧ ¬(d.1 = dr ∧ d.2 = dc) ∧
        (lv.get q.1 q.2).group = (lv.get p.1 p.2).group)

/-- The facts established for each grabbed cell `q` of a successful grab:
its push-direction neighbor is not a wall; that neighbor is itself grabbed
or was open; and every cell linked from `q` is grabbed. -/
def GrabQFacts (lv : Level) (dr dc : Int) (final : List ((Int × Int) × Cell))
    (q : Int × Int) : Prop :=
  (lv.get (q.1 + dr) (q.2 + dc)).type ≠ CellType.WALL ∧
  ((q.1 + dr, q.2 + dc) ∈ final.map Prod.fst ∨
    (lv.get (q.1 + dr) (q.2 + dc)).type = CellType.OPEN) ∧
  ∀ t, LinkL lv dr dc q t → t ∈ final.map Prod.fst

theorem grabQFacts_lift {lv lv2 : Level} {newA : List ((Int × Int) × Cell)}
    (h : NewPts lv newA lv2) {dr dc : Int} {final : List ((Int × Int) × Cell)}
    {q : Int × Int} (hsub : GrabQFacts lv2 dr dc final q)
    (hmem : ∀ x ∈ newA.map Prod.fst, x ∈ final.map Prod.fst)
    (hqmv : (lv2.get q.1 q.2).type = CellType.MOVABLE) :
    GrabQFacts lv dr dc final q := by
  obtain ⟨hwall, hopen, hclose⟩ := hsub
  have hqeq : lv2.get q.1 q.2 = lv.get q.1 q.2 := newPts_cleared h q.1 q.2 hqmv
  refine ⟨?_, ?_, ?_⟩
  · intro hc
    exact hwall ((newPts_wall_iff h _ _).mpr hc)
  · rcases hopen with hm | hop
    · exact Or.inl hm
    · by_cases hmemA : (q.1 + dr, q.2 + dc) ∈ newA.map Prod.fst
      · exact Or.inl (hmem _ hmemA)
      · rw [newPts_get_notin h _ _ hmemA] at hop
        exact Or.inr hop
  · intro t hlink
    obtain ⟨htmv, hcase⟩ := hlink
    by_cases hmemA : t ∈ newA.map Prod.fst
    · exact hmem _ hmemA
    · have hteq : lv2.get t.1 t.2 = lv.get t.1 t.2 := by
        apply newPts_get_notin h
        obtain ⟨t1, t2⟩ := t
        exact hmemA
      apply hclose t
      refine ⟨by rw [hteq]; exact htmv, ?_⟩
      rcases hcase with hpush | ⟨d, hd, heq, hnp, hgr⟩
      · exact Or.inl hpush
      · exact Or.inr ⟨d, hd, heq, hnp, by rw [hteq, hqeq]; exact hgr⟩

theorem mem_map_fst_prefix {a b : List ((Int × Int) × Cell)} {x : Int × Int}
    (h : x ∈ a.map Prod.fst) : x ∈ (a ++ b).map Prod.fst := by
  simp only [List.map_append, List.mem_append]
  exact Or.inl h

theorem grabQFacts_mono {lv : Level} {dr dc : Int} {f1 f2 : List ((Int × Int) × Cell)}
    {q : Int × Int} (h : GrabQFacts lv dr dc f1 q)
    (hf : ∀ x ∈ f1.map Prod.fst, x ∈ f2.map Prod.fst) : GrabQFacts lv dr dc f2 q := by
  obtain ⟨hwall, hopen, hclose⟩ := h
  refine ⟨hwall, ?_, fun t ht => hf _ (hclose t ht)⟩
  rcases hopen with hm | hop
  · exact Or.inl (hf _ hm)
  · exact Or.inr hop

theorem dirs_ne_zero : ∀ d ∈ dirs, ¬(d.1 = 0 ∧ d.2 = 0) := by decide

/-- The wall checks performed by the direction loop: if the push direction
is among the remaining directions, its target is not a wall (on success). -/
def DirsWallFact (lv : Level) (r c dr dc : Int) (ds : List (Int × Int)) : Prop :=
  ∀ d ∈ ds, d.1 = dr ∧ d.2 = dc → (lv.get (r + d.1) (c + d.2)).type ≠ CellType.WALL

/-- The grabbing performed by the direction loop: each remaining direction
whose target is movable and matches the push/cohesion condition ends up
recorded. -/
def DirsStartFact (lv : Level) (r c dr dc : Int) (g : Nat) (ds : List (Int × Int))
    (final : List ((Int × Int) × Cell)) : Prop :=
  ∀ d ∈ ds, (lv.get (r + d.1) (c + d.2)).type = CellType.MOVABLE →
    ((d.1 = dr ∧ d.2 = dc) ∨ (lv.get (r + d.1) (c + d.2)).group = g) →
    (r + d.1, c + d.2) ∈ final.map Prod.fst

theorem grabDirs_success_of
    (sub : Level → List ((Int × Int) × Cell) → Int → Int → Int → Int →
      List ((Int × Int) × Cell) × Level × Bool)
    (hM : ∀ lv pts r c dr dc, (dr, dc) ∈ dirs → (lv.get r c).type = CellType.MOVABLE →
      (sub lv pts r c dr dc).2.2 = true →
      ∃ new, (sub lv pts r c dr dc).1 = pts ++ new ∧
        NewPts lv new (sub lv pts r c dr dc).2.1 ∧
        (r, c) ∈ new.map Prod.fst ∧
        ∀ q ∈ new.map Prod.fst,
          GrabQFacts lv dr dc (sub lv pts r c dr dc).1 q) :
    ∀ ds lv pts r c dr dc g, (dr, dc) ∈ dirs →
      (grabDirsGo sub lv pts r c dr dc g ds).2.2 = true →
      ∃ new, (grabDirsGo sub lv pts r c dr dc g ds).1 = pts ++ new ∧
        NewPts lv new (grabDirsGo sub lv pts r c dr dc g ds).2.1 ∧
        (∀ q ∈ new.map Prod.fst,
          GrabQFacts lv dr dc (grabDirsGo sub lv pts r c dr dc g ds).1 q) ∧
        DirsWallFact lv r c dr dc ds ∧
        DirsStartFact lv r c dr dc g ds (grabDirsGo sub lv pts r c dr dc g ds).1 := by
  intro ds
  induction ds with
  | nil =>
    intro lv pts r c dr dc g _ _
    refine ⟨[], by simp [grabDirsGo], by simp [grabDirsGo, NewPts], ?_, ?_, ?_⟩
    · intro q hq
      simp at hq
    · intro d hd
      simp at hd
    · intro d hd
      simp at hd
  | cons d0 rest ih =>
    intro lv pts r c dr dc g hdir htrue
    obtain ⟨ddr, ddc⟩ := d0
    rw [grabDirsGo] at htrue ⊢
    by_cases hd : ddr = dr ∧ ddc = dc
    · rw [if_pos hd] at htrue ⊢
      by_cases hw : (lv.get (r + ddr) (c + ddc)).type = CellType.WALL
      · rw [if_pos hw] at htrue
        simp at htrue
      · rw [if_neg hw] at htrue ⊢
        by_cases hm : (lv.get (r + ddr) (c + ddc)).type = CellType.MOVABLE
        · rw [if_pos hm] at htrue ⊢
          rcases hg : sub lv pts (r + ddr) (c + ddc) dr dc with ⟨pts2, lv2, b⟩
          rw [hg] at htrue
          cases b
          · simp at htrue
          · simp only at htrue ⊢
            obtain ⟨newA, hptsA, hNPA, hstartA, hQA⟩ :=
              hM lv pts (r + ddr) (c + ddc) dr dc hdir hm (by rw [hg])
            rw [hg] at hptsA hNPA hQA
            simp only at hptsA hNPA hQA
            obtain ⟨newB, hptsB, hNPB, hQB, hWdB, hStB⟩ :=
              ih lv2 pts2 r c dr dc g hdir htrue
            have hfinmono : ∀ x ∈ pts2.map Prod.fst,
                x ∈ (grabDirsGo sub lv2 pts2 r c dr dc g rest).1.map Prod.fst := by
              intro x hx
              rw [hptsB]
              exact mem_map_fst_prefix hx
            have hnewAfin : ∀ x ∈ newA.map Prod.fst,
                x ∈ (grabDirsGo sub lv2 pts2 r c dr dc g rest).1.map Prod.fst := by
              intro x hx
              apply hfinmono
              rw [hptsA]
              simp only [List.map_append, List.mem_append]
              exact Or.inr hx
            refine ⟨newA ++ newB, ?_, newPts_append hNPA hNPB, ?_, ?_, ?_⟩
            · rw [hptsB, hptsA, List.append_assoc]
            · intro q hq
              rw [List.map_append, List.mem_append] at hq
              rcases hq with hqA | hqB
              · exact grabQFacts_mono (hQA q hqA) hfinmono
              · exact grabQFacts_lift hNPA (hQB q hqB) hnewAfin (newPts_pos_movable hNPB hqB)
            · intro d hdm hpush
              rcases List.mem_cons.mp hdm with rfl | hdm2
              · exact fun hwall => hw hwall
              · intro hwall
                exact hWdB d hdm2 hpush ((newPts_wall_iff hNPA _ _).mpr hwall)
            · intro d hdm hmv hcond
              rcases List.mem_cons.mp hdm with rfl | hdm2
              · apply hnewAfin
                simpa using hstartA
              · by_cases hmemA : (r + d.1, c + d.2) ∈ newA.map Prod.fst
                · exact hnewAfin _ hmemA
                · have hgeq : lv2.get (r + d.1) (c + d.2) = lv.get (r + d.1) (c + d.2) :=
                    newPts_get_notin hNPA _ _ hmemA
                  exact hStB d hdm2 (by rw [hgeq]; exact hmv)
                    (by rw [hgeq]; exact hcond)
        · rw [if_neg hm] at htrue ⊢
          obtain ⟨newB, hptsB, hNPB, hQB, hWdB, hStB⟩ := ih lv pts r c dr dc g hdir htrue
          refine ⟨newB, hptsB, hNPB, hQB, ?_, ?_⟩
          · intro d hdm hpush
            rcases List.mem_cons.mp hdm with rfl | hdm2
            · exact fun hwall => hw hwall
            · exact hWdB d hdm2 hpush
          · intro d hdm hmv hcond
            rcases List.mem_cons.mp hdm with rfl | hdm2
            · exact absurd hmv hm
            · exact hStB d hdm2 hmv hcond
    · rw [if_neg hd] at htrue ⊢
      by_cases hm : (lv.get (r + ddr) (c + ddc)).type = CellType.MOVABLE ∧
          (lv.get (r + ddr) (c + ddc)).group = g
      · rw [if_pos hm] at htrue ⊢
        rcases hg : sub lv pts (r + ddr) (c + ddc) dr dc with ⟨pts2, lv2, b⟩
        rw [hg] at htrue
        cases b
        · simp at htrue
        · simp only at htrue ⊢
          obtain ⟨newA, hptsA, hNPA, hstartA, hQA⟩ :=
            hM lv pts (r + ddr) (c + ddc) dr dc hdir hm.1 (by rw [hg])
          rw [hg] at hptsA hNPA hQA
          simp only at hptsA hNPA hQA
          obtain ⟨newB, hptsB, hNPB, hQB, hWdB, hStB⟩ :=
            ih lv2 pts2 r c dr dc g hdir htrue
          have hfinmono : ∀ x ∈ pts2.map Prod.fst,
              x ∈ (grabDirsGo sub lv2 pts2 r c dr dc g rest).1.map Prod.fst := by
            intro x hx
            rw [hptsB]
            exact mem_map_fst_prefix hx
          have hnewAfin : ∀ x ∈ newA.map Prod.fst,
              x ∈ (grabDirsGo sub lv2 pts2 r c dr dc g rest).1.map Prod.fst := by
            intro x hx
            apply hfinmono
            rw [hptsA]
            simp only [List.map_append, List.mem_append]
            exact Or.inr hx
          refine ⟨newA ++ newB, ?_, newPts_append hNPA hNPB, ?_, ?_, ?_⟩
          · rw [hptsB, hptsA, List.append_assoc]
          · intro q hq
            rw [List.map_append, List.mem_append] at hq
            rcases hq with hqA | hqB
            · exact grabQFacts_mono (hQA q hqA) hfinmono
            · exact grabQFacts_lift hNPA (hQB q hqB) hnewAfin (newPts_pos_movable hNPB hqB)
          · intro d hdm hpush
            rcases List.mem_cons.mp hdm with rfl | hdm2
            · exact absurd hpush hd
            · intro hwall
              exact hWdB d hdm2 hpush ((newPts_wall_iff hNPA _ _).mpr hwall)
          · intro d hdm hmv hcond
            rcases List.mem_cons.mp hdm with rfl | hdm2
            · exact hnewAfin _ hstartA
            · by_cases hmemA : (r + d.1, c + d.2) ∈ newA.map Prod.fst
              · exact hnewAfin _ hmemA
              · have hgeq : lv2.get (r + d.1) (c + d.2) = lv.get (r + d.1) (c + d.2) :=
                  newPts_get_notin hNPA _ _ hmemA
                exact hStB d hdm2 (by rw [hgeq]; exact hmv)
                  (by rw [hgeq]; exact hcond)
      · rw [if_neg hm] at htrue ⊢
        obtain ⟨newB, hptsB, hNPB, hQB, hWdB, hStB⟩ := ih lv pts r c dr dc g hdir htrue
        refine ⟨newB, hptsB, hNPB, hQB, ?_, ?_⟩
        · intro d hdm hpush
          rcases List.mem_cons.mp hdm with rfl | hdm2
          · exact absurd hpush hd
          · exact hWdB d hdm2 hpush
        · intro d hdm hmv hcond
          rcases List.mem_cons.mp hdm with rfl | hdm2
          · rcases hcond with hpush | hgr
            · exact absurd hpush hd
            · exact absurd ⟨hmv, hgr⟩ hm
          · exact hStB d hdm2 hmv hcond

theorem grab_success (fuel : Nat) :
    ∀ lv pts r c dr dc, (dr, dc) ∈ dirs → (lv.get r c).type = CellType.MOVABLE →
      (grabRecord fuel lv pts r c dr dc).2.2 = true →
      ∃ new, (grabRecord fuel lv pts r c dr dc).1 = pts ++ new ∧
        NewPts lv new (grabRecord fuel lv pts r c dr dc).2.1 ∧
        (r, c) ∈ new.map Prod.fst ∧
        ∀ q ∈ new.map Prod.fst,
          GrabQFacts lv dr dc (grabRecord fuel lv pts r c dr dc).1 q := by
  induction fuel with
  | zero =>
    intro lv pts r c dr dc _ _ htrue
    rw [grabRecord] at htrue
    simp at htrue
  | succ fuel ih =>
    intro lv pts r c dr dc hdir hmv htrue
    have hdz := dirs_ne_zero (dr, dc) hdir
    simp only at hdz
    rw [grabRecord] at htrue ⊢
    obtain ⟨new1, hpts1, hNP1, hQ1, hWd1, hSt1⟩ :=
      grabDirs_success_of (grabRecord fuel) ih dirs (lv.setCell r c Cell.empty)
        (pts ++ [((r, c), lv.get r c)]) r c dr dc (lv.get r c).group hdir htrue
    have hsingle : NewPts lv [((r, c), lv.get r c)] (lv.setCell r c Cell.empty) :=
      ⟨rfl, hmv, rfl⟩
    have hrcfin : (r, c) ∈ (grabDirsGo (grabRecord fuel) (lv.setCell r c Cell.empty)
        (pts ++ [((r, c), lv.get r c)]) r c dr dc (lv.get r c).group dirs).1.map Prod.fst := by
      rw [hpts1]
      simp
    refine ⟨((r, c), lv.get r c) :: new1, ?_, ⟨rfl, hmv, hNP1⟩, by simp, ?_⟩
    · rw [hpts1, List.append_assoc]
      rfl
    · have hstart : GrabQFacts lv dr dc (grabDirsGo (grabRecord fuel)
          (lv.setCell r c Cell.empty)
          (pts ++ [((r, c), lv.get r c)]) r c dr dc (lv.get r c).group dirs).1 (r, c) := by
        have htne : ¬(r + dr = r ∧ c + dc = c) := by omega
        have hgeq : (lv.setCell r c Cell.empty).get (r + dr) (c + dc) =
            lv.get (r + dr) (c + dc) := get_setCell_ne _ _ _ _ _ _ htne
        refine ⟨?_, ?_, ?_⟩
        · show (lv.get (r + dr) (c + dc)).type ≠ CellType.WALL
          intro hwall
          exact hWd1 (dr, dc) hdir ⟨rfl, rfl⟩ (by rw [hgeq]; exact hwall)
        · show (r + dr, c + dc) ∈ _ ∨ (lv.get (r + dr) (c + dc)).type = CellType.OPEN
          by_cases hmvt : (lv.get (r + dr) (c + dc)).type = CellType.MOVABLE
          · exact Or.inl (hSt1 (dr, dc) hdir (by rw [hgeq]; exact hmvt) (Or.inl ⟨rfl, rfl⟩))
          · right
            have hnw : (lv.get (r + dr) (c + dc)).type ≠ CellType.WALL := by
              intro hwall
              exact hWd1 (dr, dc) hdir ⟨rfl, rfl⟩ (by rw [hgeq]; exact hwall)
            rcases h : (lv.get (r + dr) (c + dc)).type with _ | _ | _
            · rfl
            · exact absurd h hnw
            · exact absurd h hmvt
        · intro t hlink
          obtain ⟨htmv, hcase⟩ := hlink
          rcases hcase with hpush | ⟨d, hd, heq, hnp, hgr⟩
          · have hpush2 : t = (r + dr, c + dc) := hpush
            subst hpush2
            have htne2 : ¬(r + dr = r ∧ c + dc = c) := by omega
            exact hSt1 (dr, dc) hdir (by rw [hgeq]; exact htmv) (Or.inl ⟨rfl, rfl⟩)
          · have hdz2 : ¬(d.1 = 0 ∧ d.2 = 0) := dirs_ne_zero d hd
            have heq2 : t = (r + d.1, c + d.2) := heq
            have hgr2 : (lv.get t.1 t.2).group = (lv.get r c).group := hgr
            subst heq2
            have htne2 : ¬(r + d.1 = r ∧ c + d.2 = c) := by omega
            have hgeq2 : (lv.setCell r c Cell.empty).get (r + d.1) (c + d.2) =
                lv.get (r + d.1) (c + d.2) := get_setCell_ne _ _ _ _ _ _ htne2
            exact hSt1 d hd (by rw [hgeq2]; exact htmv)
              (Or.inr (by rw [hgeq2]; exact hgr2))
      intro q hq
      rw [List.map_cons] at hq
      rcases List.mem_cons.mp hq with heq | hq2
      · have hq0 : q = (r, c) := heq
        subst hq0
        exact hstart
      · -- a cell grabbed by the direction loop
        exact grabQFacts_lift hsingle (hQ1 q hq2)
          (fun x hx => by
            simp only [List.map_cons, List.map_nil, List.mem_singleton] at hx
            rw [hx]
            exact hrcfin)
          (newPts_pos_movable hNP1 hq2)

/-! ### The place-step assertions -/

theorem placeAll_ok (lv2 : Level) (pts : List ((Int × Int) × Cell)) (dr dc : Int)
    (hnd : (pts.map fun pc => (pc.1.1 + dr, pc.1.2 + dc)).Nodup)
    (hop : ∀ pc ∈ pts, (lv2.get (pc.1.1 + dr) (pc.1.2 + dc)).type = CellType.OPEN) :
    (placeAll lv2 pts dr dc).2 = true := by
  induction pts generalizing lv2 with
  | nil => rfl
  | cons qc rest ih =>
    obtain ⟨⟨r1, c1⟩, cl⟩ := qc
    simp only [placeAll, Bool.and_eq_true, decide_eq_true_eq]
    simp only [List.map_cons, List.nodup_cons] at hnd
    refine ⟨hop _ (List.mem_cons_self _ _), ?_⟩
    apply ih _ hnd.2
    intro pc hm
    rw [get_setCell_ne]
    · exact hop pc (List.mem_cons_of_mem _ hm)
    · intro hcon
      apply hnd.1
      have : (pc.1.1 + dr, pc.1.2 + dc) = (r1 + dr, c1 + dc) :=
        Prod.ext_iff.mpr ⟨by omega, by omega⟩
      rw [← this]
      exact List.mem_map.mpr ⟨pc, hm, rfl⟩

theorem tryMoveAssertOkR_def (lv : Level) (r c dr dc : Int) :
    tryMoveAssertOkR lv r c dr dc =
      (placeAll (grabRecord (movableCount lv + 1) lv [] r c dr dc).2.1
        (grabRecord (movableCount lv + 1) lv [] r c dr dc).1
        (if (grabRecord (movableCount lv + 1) lv [] r c dr dc).2.2 = true
          then (dr, dc) else ((0 : Int), (0 : Int))).1
        (if (grabRecord (movableCount lv + 1) lv [] r c dr dc).2.2 = true
          then (dr, dc) else ((0 : Int), (0 : Int))).2).2 :=
  rfl

/-- Every write of the place step targets an open cell, in the commit case
and in the rollback case alike. -/
theorem tryMoveR_assertOk (lv : Level) (r c dr dc : Int) (hdir : (dr, dc) ∈ dirs)
    (hmv : (lv.get r c).type = CellType.MOVABLE) :
    tryMoveAssertOkR lv r c dr dc = true := by
  rw [tryMoveAssertOkR_def]
  rcases hb : (grabRecord (movableCount lv + 1) lv [] r c dr dc).2.2 with _ | _
  · simp only [Bool.false_eq_true, if_false]
    obtain ⟨new, h1, h2⟩ := grab_shape (movableCount lv + 1) lv [] r c dr dc hmv
    rw [h1]
    simp only [List.nil_append]
    apply placeAll_ok
    · have hinj : Function.Injective fun p : Int × Int => (p.1 + (0 : Int), p.2 + (0 : Int)) := by
        intro a b hab
        simp only [Prod.mk.injEq] at hab
        exact Prod.ext_iff.mpr ⟨by omega, by omega⟩
      have := (newPts_nodup h2).map hinj
      simpa [Function.comp] using this
    · intro pc hm
      obtain ⟨⟨a, b⟩, cl⟩ := pc
      have hmem : (a, b) ∈ new.map Prod.fst := List.mem_map.mpr ⟨((a, b), cl), hm, rfl⟩
      have := newPts_get_in h2 a b hmem
      show ((grabRecord (movableCount lv + 1) lv [] r c dr dc).2.1.get (a + 0) (b + 0)).type =
        CellType.OPEN
      simp only [Int.add_zero]
      rw [this]
      rfl
  · simp only [if_true]
    obtain ⟨new, h1, h2, hstart, hQ⟩ :=
      grab_success (movableCount lv + 1) lv [] r c dr dc hdir hmv hb
    rw [h1]
    simp only [List.nil_append]
    apply placeAll_ok
    · have hinj : Function.Injective fun p : Int × Int => (p.1 + dr, p.2 + dc) := by
        intro a b hab
        simp only [Prod.mk.injEq] at hab
        exact Prod.ext_iff.mpr ⟨by omega, by omega⟩
      have := (newPts_nodup h2).map hinj
      simpa [Function.comp] using this
    · intro pc hm
      obtain ⟨⟨a, b⟩, cl⟩ := pc
      have hmem : (a, b) ∈ new.map Prod.fst := List.mem_map.mpr ⟨((a, b), cl), hm, rfl⟩
      obtain ⟨hwall, hopen, hclose⟩ := hQ (a, b) hmem
      rw [h1] at hopen
      simp only [List.nil_append] at hopen
      show ((grabRecord (movableCount lv + 1) lv [] r c dr dc).2.1.get (a + dr) (b + dc)).type =
        CellType.OPEN
      by_cases hdm : (a + dr, b + dc) ∈ new.map Prod.fst
      · rw [newPts_get_in h2 _ _ hdm]
        rfl
      · rcases hopen with hmem2 | hop
        · exact absurd hmem2 hdm
        · rw [newPts_get_notin h2 _ _ hdm]
          exact hop

/-! ### Soundness: every recorded cell is in the transitively grabbed set -/

/-- The transitively grabbed set: reflexive-transitive closure of the
one-step grab links starting from the first grabbed cell. -/
def Reaches (lv : Level) (dr dc : Int) : (Int × Int) → (Int × Int) → Prop :=
  Relation.ReflTransGen (LinkL lv dr dc)

/-- A valid first hop of the direction loop at `(r, c)` whose recorded
group is `g`. -/
def StartLink (lv : Level) (r c dr dc : Int) (g : Nat) (t : Int × Int) : Prop :=
  (lv.get t.1 t.2).type = CellType.MOVABLE ∧
    (t = (r + dr, c + dc) ∨
      ∃ d ∈ dirs, t = (r + d.1, c + d.2) ∧ ¬(d.1 = dr ∧ d.2 = dc) ∧
        (lv.get t.1 t.2).group = g)

theorem reaches_of_cleared {lv lv2 : Level} {A : List ((Int × Int) × Cell)}
    (hNP : NewPts lv A lv2) {dr dc : Int} {t q : Int × Int}
    (h : Reaches lv2 dr dc t q) (hmv : (lv2.get t.1 t.2).type = CellType.MOVABLE) :
    Reaches lv dr dc t q := by
  induction h using Relation.ReflTransGen.head_induction_on with
  | refl => exact Relation.ReflTransGen.refl
  | head hab hbc ih =>
    rename_i a b
    obtain ⟨hbmv, hcase⟩ := hab
    have hbeq : lv2.get b.1 b.2 = lv.get b.1 b.2 := newPts_cleared hNP b.1 b.2 hbmv
    have haeq : lv2.get a.1 a.2 = lv.get a.1 a.2 := newPts_cleared hNP a.1 a.2 hmv
    refine Relation.ReflTransGen.head ⟨by rw [← hbeq]; exact hbmv, ?_⟩ (ih hbmv)
    rcases hcase with hpush | ⟨d, hd, heq, hnp, hgr⟩
    · exact Or.inl hpush
    · exact Or.inr ⟨d, hd, heq, hnp, by rw [← hbeq, ← haeq]; exact hgr⟩

theorem grabDirs_sound_of
    (sub : Level → List ((Int × Int) × Cell) → Int → Int → Int → Int →
      List ((Int × Int) × Cell) × Level × Bool)
    (hM : ∀ lv pts r c dr dc, (lv.get r c).type = CellType.MOVABLE →
      ∃ new, (sub lv pts r c dr dc).1 = pts ++ new ∧
        NewPts lv new (sub lv pts r c dr dc).2.1 ∧
        ∀ q ∈ new.map Prod.fst, Reaches lv dr dc (r, c) q) :
    ∀ ds lv pts r c dr dc g, (∀ d ∈ ds, d ∈ dirs) →
      ∃ new, (grabDirsGo sub lv pts r c dr dc g ds).1 = pts ++ new ∧
        NewPts lv new (grabDirsGo sub lv pts r c dr dc g ds).2.1 ∧
        ∀ q ∈ new.map Prod.fst, ∃ t, StartLink lv r c dr dc g t ∧ Reaches lv dr dc t q := by
  intro ds
  induction ds with
  | nil =>
    intro lv pts r c dr dc g _
    exact ⟨[], by simp [grabDirsGo], by simp [grabDirsGo, NewPts], by intro q hq; simp at hq⟩
  | cons d0 rest ih =>
    intro lv pts r c dr dc g hds
    obtain ⟨ddr, ddc⟩ := d0
    have hd0dirs : (ddr, ddc) ∈ dirs := hds (ddr, ddc) (List.mem_cons_self _ _)
    have hrestdirs : ∀ d ∈ rest, d ∈ dirs := fun d hd => hds d (List.mem_cons_of_mem _ hd)
    rw [grabDirsGo]
    by_cases hd : ddr = dr ∧ ddc = dc
    · rw [if_pos hd]
      by_cases hw : (lv.get (r + ddr) (c + ddc)).type = CellType.WALL
      · rw [if_pos hw]
        exact ⟨[], by simp, by simp [NewPts], by intro q hq; simp at hq⟩
      · rw [if_neg hw]
        by_cases hm : (lv.get (r + ddr) (c + ddc)).type = CellType.MOVABLE
        · rw [if_pos hm]
          obtain ⟨newA, hptsA, hNPA, hRA⟩ := hM lv pts (r + ddr) (c + ddc) dr dc hm
          rcases hg : sub lv pts (r + ddr) (c + ddc) dr dc with ⟨pts2, lv2, b⟩
          rw [hg] at hptsA hNPA
          simp only at hptsA hNPA
          have hstart : StartLink lv r c dr dc g (r + ddr, c + ddc) := by
            refine ⟨hm, Or.inl ?_⟩
            rw [hd.1, hd.2]
          cases b
          · refine ⟨newA, by simpa using hptsA, by simpa using hNPA, ?_⟩
            intro q hq
            exact ⟨(r + ddr, c + ddc), hstart, hRA q hq⟩
          · simp only
            obtain ⟨newB, hptsB, hNPB, hRB⟩ := ih lv2 pts2 r c dr dc g hrestdirs
            refine ⟨newA ++ newB, by rw [hptsB, hptsA, List.append_assoc],
              newPts_append hNPA hNPB, ?_⟩
            intro q hq
            rw [List.map_append, List.mem_append] at hq
            rcases hq with hqA | hqB
            · exact ⟨(r + ddr, c + ddc), hstart, hRA q hqA⟩
            · obtain ⟨t, htlink, htr⟩ := hRB q hqB
              obtain ⟨htmv, htcase⟩ := htlink
              have hteq : lv2.get t.1 t.2 = lv.get t.1 t.2 :=
                newPts_cleared hNPA t.1 t.2 htmv
              refine ⟨t, ⟨by rw [← hteq]; exact htmv, ?_⟩,
                reaches_of_cleared hNPA htr htmv⟩
              rcases htcase with hpush | ⟨d, hd2, heq, hnp, hgr⟩
              · exact Or.inl hpush
              · exact Or.inr ⟨d, hd2, heq, hnp, by rw [← hteq]; exact hgr⟩
        · rw [if_neg hm]
          exact ih lv pts r c dr dc g hrestdirs
    · rw [if_neg hd]
      by_cases hm : (lv.get (r + ddr) (c + ddc)).type = CellType.MOVABLE ∧
          (lv.get (r + ddr) (c + ddc)).group = g
      · rw [if_pos hm]
        obtain ⟨newA, hptsA, hNPA, hRA⟩ := hM lv pts (r + ddr) (c + ddc) dr dc hm.1
        rcases hg : sub lv pts (r + ddr) (c + ddc) dr dc with ⟨pts2, lv2, b⟩
        rw [hg] at hptsA hNPA
        simp only at hptsA hNPA
        have hstart : StartLink lv r c dr dc g (r + ddr, c + ddc) :=
          ⟨hm.1, Or.inr ⟨(ddr, ddc), hd0dirs, rfl, hd, hm.2⟩⟩
        cases b
        · refine ⟨newA, by simpa using hptsA, by simpa using hNPA, ?_⟩
          intro q hq
          exact ⟨(r + ddr, c + ddc), hstart, hRA q hq⟩
        · simp only
          obtain ⟨newB, hptsB, hNPB, hRB⟩ := ih lv2 pts2 r c dr dc g hrestdirs
          refine ⟨newA ++ newB, by rw [hptsB, hptsA, List.append_assoc],
            newPts_append hNPA hNPB, ?_⟩
          intro q hq
          rw [List.map_append, List.mem_append] at hq
          rcases hq with hqA | hqB
          · exact ⟨(r + ddr, c + ddc), hstart, hRA q hqA⟩
          · obtain ⟨t, htlink, htr⟩ := hRB q hqB
            obtain ⟨htmv, htcase⟩ := htlink
            have hteq : lv2.get t.1 t.2 = lv.get t.1 t.2 :=
              newPts_cleared hNPA t.1 t.2 htmv
            refine ⟨t, ⟨by rw [← hteq]; exact htmv, ?_⟩,
              reaches_of_cleared hNPA htr htmv⟩
            rcases htcase with hpush | ⟨d, hd2, heq, hnp, hgr⟩
            · exact Or.inl hpush
            · exact Or.inr ⟨d, hd2, heq, hnp, by rw [← hteq]; exact hgr⟩
      · rw [if_neg hm]
        exact ih lv pts r c dr dc g hrestdirs

theorem grab_sound (fuel : Nat) :
    ∀ lv pts r c dr dc, (lv.get r c).type = CellType.MOVABLE →
      ∃ new, (grabRecord fuel lv pts r c dr dc).1 = pts ++ new ∧
        NewPts lv new (grabRecord fuel lv pts r c dr dc).2.1 ∧
        ∀ q ∈ new.map Prod.fst, Reaches lv dr dc (r, c) q := by
  induction fuel with
  | zero =>
    intro lv pts r c dr dc _
    exact ⟨[], by simp [grabRecord], by simp [grabRecord, NewPts],
      by intro q hq; simp at hq⟩
  | succ fuel ih =>
    intro lv pts r c dr dc hmv
    rw [grabRecord]
    obtain ⟨new1, h1, h2, hR⟩ := grabDirs_sound_of (grabRecord fuel) ih dirs
      (lv.setCell r c Cell.empty) (pts ++ [((r, c), lv.get r c)]) r c dr dc
      (lv.get r c).group (fun d hd => hd)
    have hsingle : NewPts lv [((r, c), lv.get r c)] (lv.setCell r c Cell.empty) :=
      ⟨rfl, hmv, rfl⟩
    refine ⟨((r, c), lv.get r c) :: new1, ?_, ⟨rfl, hmv, h2⟩, ?_⟩
    · rw [h1, List.append_assoc]
      rfl
    · intro q hq
      rw [List.map_cons] at hq
      rcases List.mem_cons.mp hq with heq | hq2
      · have hq0 : q = (r, c) := heq
        subst hq0
        exact Relation.ReflTransGen.refl
      · obtain ⟨t, hstart, hreach⟩ := hR q hq2
        obtain ⟨htmv, hcase⟩ := hstart
        have hteq : (lv.setCell r c Cell.empty).get t.1 t.2 = lv.get t.1 t.2 :=
          newPts_cleared hsingle t.1 t.2 htmv
        have hlink : LinkL lv dr dc (r, c) t := by
          refine ⟨by rw [← hteq]; exact htmv, ?_⟩
          rcases hcase with hpush | ⟨d, hd, heq, hnp, hgr⟩
          · exact Or.inl hpush
          · exact Or.inr ⟨d, hd, heq, hnp, by rw [← hteq]; exact hgr⟩
        exact Relation.ReflTransGen.head hlink (reaches_of_cleared hsingle hreach htmv)

/-! ### Failure: a wall blocks the transitively grabbed set -/

theorem movableCount_pos (lv : Level) (r c : Int)
    (h : (lv.get r c).type = CellType.MOVABLE) : 1 ≤ movableCount lv := by
  have := movableCount_setCell_empty lv r c h
  omega

theorem grabDirs_fail_of (fuel : Nat) (dr dc : Int)
    (hM : ∀ lv pts r c, (lv.get r c).type = CellType.MOVABLE →
      movableCount lv < fuel →
      (grabRecord fuel lv pts r c dr dc).2.2 = false →
      ∃ new, (grabRecord fuel lv pts r c dr dc).1 = pts ++ new ∧
        NewPts lv new (grabRecord fuel lv pts r c dr dc).2.1 ∧
        ∃ q ∈ new.map Prod.fst, (lv.get (q.1 + dr) (q.2 + dc)).type = CellType.WALL) :
    ∀ ds lv pts r c g, movableCount lv < fuel →
      (grabDirsGo (grabRecord fuel) lv pts r c dr dc g ds).2.2 = false →
      ∃ new, (grabDirsGo (grabRecord fuel) lv pts r c dr dc g ds).1 = pts ++ new ∧
        NewPts lv new (grabDirsGo (grabRecord fuel) lv pts r c dr dc g ds).2.1 ∧
        ((∃ q ∈ new.map Prod.fst, (lv.get (q.1 + dr) (q.2 + dc)).type = CellType.WALL) ∨
          ((dr, dc) ∈ ds ∧ (lv.get (r + dr) (c + dc)).type = CellType.WALL)) := by
  intro ds
  induction ds with
  | nil =>
    intro lv pts r c g _ hfalse
    rw [grabDirsGo] at hfalse
    simp at hfalse
  | cons d0 rest ih =>
    intro lv pts r c g hcnt hfalse
    obtain ⟨ddr, ddc⟩ := d0
    rw [grabDirsGo] at hfalse ⊢
    by_cases hd : ddr = dr ∧ ddc = dc
    · rw [if_pos hd] at hfalse ⊢
      by_cases hw : (lv.get (r + ddr) (c + ddc)).type = CellType.WALL
      · rw [if_pos hw] at hfalse ⊢
        obtain ⟨hd1, hd2⟩ := hd
        subst hd1
        subst hd2
        exact ⟨[], by simp, by simp [NewPts], Or.inr ⟨List.mem_cons_self _ _, hw⟩⟩
      · rw [if_neg hw] at hfalse ⊢
        by_cases hm : (lv.get (r + ddr) (c + ddc)).type = CellType.MOVABLE
        · rw [if_pos hm] at hfalse ⊢
          rcases hg : grabRecord fuel lv pts (r + ddr) (c + ddc) dr dc with ⟨pts2, lv2, b⟩
          rw [hg] at hfalse
          cases b
          · obtain ⟨newA, hptsA, hNPA, hwitA⟩ := hM lv pts (r + ddr) (c + ddc) hm hcnt
              (by rw [hg])
            rw [hg] at hptsA hNPA
            simp only at hptsA hNPA ⊢
            exact ⟨newA, hptsA, hNPA, Or.inl hwitA⟩
          · simp only at hfalse ⊢
            obtain ⟨newA, hptsA, hNPA⟩ := grab_shape fuel lv pts (r + ddr) (c + ddc) dr dc hm
            rw [hg] at hptsA hNPA
            simp only at hptsA hNPA
            have hcnt2 : movableCount lv2 < fuel := by
              have := newPts_movableCount hNPA
              omega
            obtain ⟨newB, hptsB, hNPB, hwitB⟩ := ih lv2 pts2 r c g hcnt2 hfalse
            refine ⟨newA ++ newB, by rw [hptsB, hptsA, List.append_assoc],
              newPts_append hNPA hNPB, ?_⟩
            rcases hwitB with ⟨q, hqm, hqw⟩ | ⟨hdm, hdw⟩
            · refine Or.inl ⟨q, ?_, ?_⟩
              · rw [List.map_append, List.mem_append]
                exact Or.inr hqm
              · exact (newPts_wall_iff hNPA _ _).mp hqw
            · exact Or.inr ⟨List.mem_cons_of_mem _ hdm, (newPts_wall_iff hNPA _ _).mp hdw⟩
        · rw [if_neg hm] at hfalse ⊢
          obtain ⟨newB, hptsB, hNPB, hwitB⟩ := ih lv pts r c g hcnt hfalse
          refine ⟨newB, hptsB, hNPB, ?_⟩
          rcases hwitB with hq | ⟨hdm, hdw⟩
          · exact Or.inl hq
          · exact Or.inr ⟨List.mem_cons_of_mem _ hdm, hdw⟩
    · rw [if_neg hd] at hfalse ⊢
      by_cases hm : (lv.get (r + ddr) (c + ddc)).type = CellType.MOVABLE ∧
          (lv.get (r + ddr) (c + ddc)).group = g
      · rw [if_pos hm] at hfalse ⊢
        rcases hg : grabRecord fuel lv pts (r + ddr) (c + ddc) dr dc with ⟨pts2, lv2, b⟩
        rw [hg] at hfalse
        cases b
        · obtain ⟨newA, hptsA, hNPA, hwitA⟩ := hM lv pts (r + ddr) (c + ddc) hm.1 hcnt
            (by rw [hg])
          rw [hg] at hptsA hNPA
          simp only at hptsA hNPA ⊢
          exact ⟨newA, hptsA, hNPA, Or.inl hwitA⟩
        · simp only at hfalse ⊢
          obtain ⟨newA, hptsA, hNPA⟩ := grab_shape fuel lv pts (r + ddr) (c + ddc) dr dc hm.1
          rw [hg] at hptsA hNPA
          simp only at hptsA hNPA
          have hcnt2 : movableCount lv2 < fuel := by
            have := newPts_movableCount hNPA
            omega
          obtain ⟨newB, hptsB, hNPB, hwitB⟩ := ih lv2 pts2 r c g hcnt2 hfalse
          refine ⟨newA ++ newB, by rw [hptsB, hptsA, List.append_assoc],
            newPts_append hNPA hNPB, ?_⟩
          rcases hwitB with ⟨q, hqm, hqw⟩ | ⟨hdm, hdw⟩
          · refine Or.inl ⟨q, ?_, ?_⟩
            · rw [List.map_append, List.mem_append]
              exact Or.inr hqm
            · exact (newPts_wall_iff hNPA _ _).mp hqw
          · exact Or.inr ⟨List.mem_cons_of_mem _ hdm, (newPts_wall_iff hNPA _ _).mp hdw⟩
      · rw [if_neg hm] at hfalse ⊢
        obtain ⟨newB, hptsB, hNPB, hwitB⟩ := ih lv pts r c g hcnt hfalse
        refine ⟨newB, hptsB, hNPB, ?_⟩
        rcases hwitB with hq | ⟨hdm, hdw⟩
        · exact Or.inl hq
        · exact Or.inr ⟨List.mem_cons_of_mem _ hdm, hdw⟩

theorem grab_fail (fuel : Nat) :
    ∀ lv pts r c dr dc, (dr, dc) ∈ dirs → (lv.get r c).type = CellType.MOVABLE →
      movableCount lv < fuel →
      (grabRecord fuel lv pts r c dr dc).2.2 = false →
      ∃ new, (grabRecord fuel lv pts r c dr dc).1 = pts ++ new ∧
        NewPts lv new (grabRecord fuel lv pts r c dr dc).2.1 ∧
        ∃ q ∈ new.map Prod.fst, (lv.get (q.1 + dr) (q.2 + dc)).type = CellType.WALL := by
  induction fuel with
  | zero =>
    intro lv pts r c dr dc _ _ hcnt _
    omega
  | succ fuel ih =>
    intro lv pts r c dr dc hdir hmv hcnt hfalse
    have hdz := dirs_ne_zero (dr, dc) hdir
    simp only at hdz
    rw [grabRecord] at hfalse ⊢
    have hsingle : NewPts lv [((r, c), lv.get r c)] (lv.setCell r c Cell.empty) :=
      ⟨rfl, hmv, rfl⟩
    have hcnt1 : movableCount (lv.setCell r c Cell.empty) < fuel := by
      have := movableCount_setCell_empty lv r c hmv
      omega
    obtain ⟨new1, hpts1, hNP1, hwit1⟩ := grabDirs_fail_of fuel dr dc
      (fun lv2 pts2 r2 c2 hmv2 hcnt2 hfalse2 =>
        ih lv2 pts2 r2 c2 dr dc hdir hmv2 hcnt2 hfalse2)
      dirs (lv.setCell r c Cell.empty) (pts ++ [((r, c), lv.get r c)]) r c
      (lv.get r c).group hcnt1 hfalse
    refine ⟨((r, c), lv.get r c) :: new1, ?_, ⟨rfl, hmv, hNP1⟩, ?_⟩
    · rw [hpts1, List.append_assoc]
      rfl
    · rcases hwit1 with ⟨q, hqm, hqw⟩ | ⟨_, hdw⟩
      · refine ⟨q, List.mem_cons_of_mem _ hqm, ?_⟩
        exact (newPts_wall_iff hsingle _ _).mp hqw
      · refine ⟨(r, c), ?_, ?_⟩
        · rw [List.map_cons]
          exact List.mem_cons_self _ _
        · have hne : ¬(r + dr = r ∧ c + dc = c) := by
            intro hcon
            exact hdz ⟨by omega, by omega⟩
          rw [get_setCell_ne lv r c (r + dr) (c + dc) Cell.empty hne] at hdw
          exact hdw

theorem grab_success_no_block (fuel : Nat) (lv : Level) (r c dr dc : Int)
    (hdir : (dr, dc) ∈ dirs) (hmv : (lv.get r c).type = CellType.MOVABLE)
    (htrue : (grabRecord fuel lv [] r c dr dc).2.2 = true) :
    ∀ q, Reaches lv dr dc (r, c) q →
      (lv.get (q.1 + dr) (q.2 + dc)).type ≠ CellType.WALL := by
  obtain ⟨new, hpts, hNP, hrc, hfacts⟩ := grab_success fuel lv [] r c dr dc hdir hmv htrue
  have hmm : ∀ x : Int × Int, x ∈ (grabRecord fuel lv [] r c dr dc).1.map Prod.fst ↔
      x ∈ new.map Prod.fst := by
    intro x
    rw [hpts]
    simp
  have hkey : ∀ q, Reaches lv dr dc (r, c) q → q ∈ new.map Prod.fst := by
    intro q hq
    induction hq with
    | refl => exact hrc
    | tail hab hbc ih =>
      rename_i b q2
      exact (hmm q2).mp ((hfacts b ih).2.2 q2 hbc)
  intro q hq
  exact (hfacts q (hkey q hq)).1

theorem tryMoveR_fail_iff_wall (lv : Level) (r c dr dc : Int)
    (hdir : (dr, dc) ∈ dirs) (hmv : (lv.get r c).type = CellType.MOVABLE) :
    ((tryMoveR lv r c dr dc).1 = false ↔
      ∃ q, Reaches lv dr dc (r, c) q ∧
        (lv.get (q.1 + dr) (q.2 + dc)).type = CellType.WALL) := by
  rw [tryMoveR_fst]
  constructor
  · intro hfail
    obtain ⟨new, hpts, hNP, q, hqm, hqw⟩ :=
      grab_fail (movableCount lv + 1) lv [] r c dr dc hdir hmv (Nat.lt_succ_self _) hfail
    obtain ⟨newS, hptsS, hNPS, hreach⟩ := grab_sound (movableCount lv + 1) lv [] r c dr dc hmv
    have heq : new = newS := by
      have h2 := hpts.symm.trans hptsS
      simpa using h2
    rw [heq] at hqm
    exact ⟨q, hreach q hqm, hqw⟩
  · rintro ⟨q, hreach, hwall⟩
    cases hb : (grabRecord (movableCount lv + 1) lv [] r c dr dc).2.2
    · rfl
    · exact absurd hwall
        (grab_success_no_block (movableCount lv + 1) lv r c dr dc hdir hmv hb q hreach)

/-! ### The three-way comparison versus structural equality -/

theorem ordThen_eq_iff (x y : Ordering) :
    (x.then y = Ordering.eq ↔ (x = Ordering.eq ∧ y = Ordering.eq)) := by
  cases x <;> cases y <;> simp [Ordering.then]

theorem natCmp_eq_iff (a b : Nat) : (natCmp a b = Ordering.eq ↔ a = b) := by
  unfold natCmp
  split_ifs with h1 h2 <;> simp <;> omega

theorem listCmp_eq_iff {α : Type} (cmp : α → α → Ordering)
    (hc : ∀ a b, (cmp a b = Ordering.eq ↔ a = b)) :
    ∀ xs ys, (listCmp cmp xs ys = Ordering.eq ↔ xs = ys) := by
  intro xs
  induction xs with
  | nil =>
    intro ys
    cases ys <;> simp [listCmp]
  | cons x xt ih =>
    intro ys
    cases ys with
    | nil => simp [listCmp]
    | cons y yt =>
      rw [listCmp, ordThen_eq_iff, hc, ih]
      simp

theorem cellCmp_eq_iff (a b : Cell) : (cellCmp a b = Ordering.eq ↔ a = b) := by
  obtain ⟨t1, c1, g1⟩ := a
  obtain ⟨t2, c2, g2⟩ := b
  unfold cellCmp
  rw [ordThen_eq_iff, ordThen_eq_iff, natCmp_eq_iff, natCmp_eq_iff, natCmp_eq_iff]
  have htv : (cellTypeVal t1 = cellTypeVal t2 ↔ t1 = t2) := by
    cases t1 <;> cases t2 <;> simp [cellTypeVal]
  rw [htv]
  simp [and_assoc]

theorem levelCmp_eq_iff (a b : Level) : (levelCmp a b = Ordering.eq ↔ a = b) := by
  obtain ⟨w1, h1, g1, gr1⟩ := a
  obtain ⟨w2, h2, g2, gr2⟩ := b
  unfold levelCmp
  rw [ordThen_eq_iff, ordThen_eq_iff, ordThen_eq_iff, natCmp_eq_iff, natCmp_eq_iff,
    natCmp_eq_iff, listCmp_eq_iff _ (listCmp_eq_iff _ cellCmp_eq_iff)]
  simp [and_assoc]

/-! ### Lawfulness of the comparisons, sortedness and deduplication -/

structure IsLinearCmp {α : Type} (cmp : α → α → Ordering) : Prop where
  eqIff : ∀ a b, (cmp a b = Ordering.eq ↔ a = b)
  ltGtIff : ∀ a b, (cmp a b = Ordering.lt ↔ cmp b a = Ordering.gt)
  ltTrans : ∀ a b c, cmp a b = Ordering.lt → cmp b c = Ordering.lt →
    cmp a c = Ordering.lt

theorem natCmp_isLinear : IsLinearCmp natCmp := by
  refine ⟨natCmp_eq_iff, ?_, ?_⟩
  · intro a b
    unfold natCmp
    split_ifs <;> simp_all <;> omega
  · intro a b c h1 h2
    unfold natCmp at h1 h2 ⊢
    split_ifs at h1 h2 ⊢ <;> simp_all <;> omega

theorem isLinearCmp_keyed {α β γ : Type} (f : α → β) (g : α → γ)
    (c1 : β → β → Ordering) (c2 : γ → γ → Ordering)
    (h1 : IsLinearCmp c1) (h2 : IsLinearCmp c2)
    (hinj : ∀ a b, f a = f b → g a = g b → a = b) :
    IsLinearCmp (fun a b => (c1 (f a) (f b)).then (c2 (g a) (g b))) := by
  constructor
  · intro a b
    rw [ordThen_eq_iff, h1.eqIff, h2.eqIff]
    constructor
    · rintro ⟨hf, hg⟩
      exact hinj a b hf hg
    · rintro rfl
      exact ⟨rfl, rfl⟩
  · intro a b
    rcases hc : c1 (f a) (f b) with _ | _ | _
    · have hm : c1 (f b) (f a) = Ordering.gt := (h1.ltGtIff _ _).mp hc
      simp [Ordering.then, hc, hm]
    · have hfe : f a = f b := (h1.eqIff _ _).mp hc
      have hm : c1 (f b) (f a) = Ordering.eq := (h1.eqIff _ _).mpr hfe.symm
      simp [Ordering.then, hc, hm, h2.ltGtIff (g a) (g b)]
    · have hm : c1 (f b) (f a) = Ordering.lt := (h1.ltGtIff _ _).mpr hc
      simp [Ordering.then, hc, hm]
  · intro a b c hab hbc
    rcases h1c : c1 (f a) (f b) with _ | _ | _
    · rcases h2c : c1 (f b) (f c) with _ | _ | _
      · have hx : c1 (f a) (f c) = Ordering.lt := h1.ltTrans _ _ _ h1c h2c
        simp [Ordering.then, hx]
      · have hfe : f b = f c := (h1.eqIff _ _).mp h2c
        have hx : c1 (f a) (f c) = Ordering.lt := by rw [← hfe]; exact h1c
        simp [Ordering.then, hx]
      · rw [h2c] at hbc
        simp [Ordering.then] at hbc
    · have hfe : f a = f b := (h1.eqIff _ _).mp h1c
      rcases h2c : c1 (f b) (f c) with _ | _ | _
      · have hx : c1 (f a) (f c) = Ordering.lt := by rw [hfe]; exact h2c
        simp [Ordering.then, hx]
      · have hfe2 : f b = f c := (h1.eqIff _ _).mp h2c
        have hac : c1 (f a) (f c) = Ordering.eq := (h1.eqIff _ _).mpr (hfe.trans hfe2)
        rw [h1c] at hab
        rw [h2c] at hbc
        simp only [Ordering.then] at hab hbc
        have hx : c2 (g a) (g c) = Ordering.lt := h2.ltTrans _ _ _ hab hbc
        simp [Ordering.then, hac, hx]
      · rw [h2c] at hbc
        simp [Ordering.then] at hbc
    · rw [h1c] at hab
      simp [Ordering.then] at hab

theorem listCmp_isLinear {α : Type} (c : α → α → Ordering) (hc : IsLinearCmp c) :
    IsLinearCmp (listCmp c) := by
  constructor
  · exact listCmp_eq_iff c hc.eqIff
  · intro a
    induction a with
    | nil =>
      intro b
      cases b <;> simp [listCmp]
    | cons x xt ih =>
      intro b
      cases b with
      | nil => simp [listCmp]
      | cons y yt =>
        rw [listCmp, listCmp]
        rcases hxy : c x y with _ | _ | _
        · have hm := (hc.ltGtIff x y).mp hxy
          simp [Ordering.then, hxy, hm]
        · have hxe : x = y := (hc.eqIff _ _).mp hxy
          have hyx : c y x = Ordering.eq := (hc.eqIff _ _).mpr hxe.symm
          simp [Ordering.then, hxy, hyx, ih yt]
        · have hm : c y x = Ordering.lt := (hc.ltGtIff y x).mpr hxy
          simp [Ordering.then, hxy, hm]
  · intro a
    induction a with
    | nil =>
      intro b c3 hab hbc
      cases b with
      | nil => exact hbc
      | cons y yt =>
        cases c3 with
        | nil => simp [listCmp] at hbc
        | cons z zt => simp [listCmp]
    | cons x xt ih =>
      intro b c3 hab hbc
      cases b with
      | nil => simp [listCmp] at hab
      | cons y yt =>
        cases c3 with
        | nil => simp [listCmp] at hbc
        | cons z zt =>
          rw [listCmp] at hab hbc ⊢
          rcases hxy : c x y with _ | _ | _
          · rcases hyz : c y z with _ | _ | _
            · have hx : c x z = Ordering.lt := hc.ltTrans _ _ _ hxy hyz
              simp [Ordering.then, hx]
            · have hyze : y = z := (hc.eqIff _ _).mp hyz
              have hx : c x z = Ordering.lt := by rw [← hyze]; exact hxy
              simp [Ordering.then, hx]
            · rw [hyz] at hbc
              simp [Ordering.then] at hbc
          · have hxye : x = y := (hc.eqIff _ _).mp hxy
            rcases hyz : c y z with _ | _ | _
            · have hx : c x z = Ordering.lt := by rw [hxye]; exact hyz
              simp [Ordering.then, hx]
            · have hyze : y = z := (hc.eqIff _ _).mp hyz
              have hxz : c x z = Ordering.eq := (hc.eqIff _ _).mpr (hxye.trans hyze)
              rw [hxy] at hab
              rw [hyz] at hbc
              simp only [Ordering.then] at hab hbc
              have hx := ih yt zt hab hbc
              simp [Ordering.then, hxz, hx]
            · rw [hyz] at hbc
              simp [Ordering.then] at hbc
          · rw [hxy] at hab
            simp [Ordering.then] at hab

theorem cellCmp_isLinear : IsLinearCmp cellCmp := by
  have hpair : IsLinearCmp (fun p q : Nat × Nat =>
      (natCmp p.1 q.1).then (natCmp p.2 q.2)) :=
    isLinearCmp_keyed Prod.fst Prod.snd natCmp natCmp natCmp_isLinear natCmp_isLinear
      (fun a b h1 h2 => Prod.ext h1 h2)
  have hkey : IsLinearCmp (fun a b : Cell =>
      (natCmp (cellTypeVal a.type) (cellTypeVal b.type)).then
        ((natCmp (a.color, a.group).1 (b.color, b.group).1).then
          (natCmp (a.color, a.group).2 (b.color, b.group).2))) :=
    isLinearCmp_keyed (fun x : Cell => cellTypeVal x.type)
      (fun x : Cell => (x.color, x.group)) natCmp _ natCmp_isLinear hpair
      (by
        intro a b h1 h2
        obtain ⟨t1, c1, g1⟩ := a
        obtain ⟨t2, c2, g2⟩ := b
        simp only [Prod.mk.injEq] at h2
        have ht : t1 = t2 := by
          cases t1 <;> cases t2 <;> simp [cellTypeVal] at h1 <;> rfl
        simp [ht, h2.1, h2.2])
  exact hkey

theorem levelCmp_isLinear : IsLinearCmp levelCmp := by
  have hgrid : IsLinearCmp (listCmp (listCmp cellCmp)) :=
    listCmp_isLinear _ (listCmp_isLinear _ cellCmp_isLinear)
  have h3 : IsLinearCmp (fun p q : Nat × List (List Cell) =>
      (natCmp p.1 q.1).then (listCmp (listCmp cellCmp) p.2 q.2)) :=
    isLinearCmp_keyed Prod.fst Prod.snd natCmp _ natCmp_isLinear hgrid
      (fun a b h1 h2 => Prod.ext h1 h2)
  have h2 : IsLinearCmp (fun p q : Nat × (Nat × List (List Cell)) =>
      (natCmp p.1 q.1).then
        ((natCmp p.2.1 q.2.1).then (listCmp (listCmp cellCmp) p.2.2 q.2.2))) :=
    isLinearCmp_keyed Prod.fst Prod.snd natCmp _ natCmp_isLinear h3
      (fun a b h1 h2 => Prod.ext h1 h2)
  have hkey : IsLinearCmp (fun a b : Level =>
      (natCmp a.width b.width).then
        ((natCmp (a.height, a.groups, a.grid).1 (b.height, b.groups, b.grid).1).then
          ((natCmp (a.height, a.groups, a.grid).2.1 (b.height, b.groups, b.grid).2.1).then
            (listCmp (listCmp cellCmp) (a.height, a.groups, a.grid).2.2
              (b.height, b.groups, b.grid).2.2)))) :=
    isLinearCmp_keyed (fun lv : Level => lv.width)
      (fun lv : Level => (lv.height, lv.groups, lv.grid)) natCmp _ natCmp_isLinear h2
      (by
        intro a b h1 h2
        obtain ⟨w1, ht1, g1, gr1⟩ := a
        obtain ⟨w2, ht2, g2, gr2⟩ := b
        have hw : w1 = w2 := h1
        simp only [Prod.mk.injEq] at h2
        simp [hw, h2.1, h2.2.1, h2.2.2])
  exact hkey

theorem levelLE_total : ∀ a b : Level, levelLE a b ∨ levelLE b a := by
  intro a b
  unfold levelLE
  rcases h : levelCmp a b with _ | _ | _
  · left
    simp [h]
  · left
    simp [h]
  · right
    have hm : levelCmp b a = Ordering.lt := (levelCmp_isLinear.ltGtIff b a).mpr h
    simp [hm]

theorem levelLE_trans : ∀ a b c : Level, levelLE a b → levelLE b c → levelLE a c := by
  intro a b c hab hbc
  unfold levelLE at hab hbc ⊢
  rcases h1 : levelCmp a b with _ | _ | _
  · rcases h2 : levelCmp b c with _ | _ | _
    · have hx := levelCmp_isLinear.ltTrans a b c h1 h2
      simp [hx]
    · have hbe : b = c := (levelCmp_isLinear.eqIff _ _).mp h2
      rw [← hbe]
      simp [h1]
    · exact absurd h2 hbc
  · have hae : a = b := (levelCmp_isLinear.eqIff _ _).mp h1
    rw [hae]
    exact hbc
  · exact absurd h1 hab

theorem levelLE_antisymm : ∀ a b : Level, levelLE a b → levelLE b a → a = b := by
  intro a b hab hba
  rcases h : levelCmp a b with _ | _ | _
  · exact absurd ((levelCmp_isLinear.ltGtIff a b).mp h) hba
  · exact (levelCmp_isLinear.eqIff a b).mp h
  · exact absurd h hab

instance : IsTotal Level levelLE := ⟨levelLE_total⟩

instance : IsTrans Level levelLE := ⟨levelLE_trans⟩

theorem dedupAdjGo_subset (prev : Level) : ∀ l, ∀ x ∈ dedupAdjGo prev l, x ∈ l := by
  intro l
  induction l generalizing prev with
  | nil =>
    intro x hx
    simp [dedupAdjGo] at hx
  | cons b rest ih =>
    intro x hx
    rw [dedupAdjGo] at hx
    by_cases hpb : prev = b
    · rw [if_pos hpb] at hx
      exact List.mem_cons_of_mem _ (ih prev x hx)
    · rw [if_neg hpb] at hx
      rcases List.mem_cons.mp hx with h | h
      · exact h ▸ List.mem_cons_self _ _
      · exact List.mem_cons_of_mem _ (ih b x h)

theorem dedupAdjGo_complete (prev : Level) :
    ∀ l, ∀ x ∈ l, x ∈ dedupAdjGo prev l ∨ x = prev := by
  intro l
  induction l generalizing prev with
  | nil =>
    intro x hx
    simp at hx
  | cons b rest ih =>
    intro x hx
    rw [dedupAdjGo]
    by_cases hpb : prev = b
    · rw [if_pos hpb]
      rcases List.mem_cons.mp hx with h | h
      · exact Or.inr (h.trans hpb.symm)
      · exact ih prev x h
    · rw [if_neg hpb]
      rcases List.mem_cons.mp hx with h | h
      · exact Or.inl (h ▸ List.mem_cons_self _ _)
      · rcases ih b x h with h2 | h2
        · exact Or.inl (List.mem_cons_of_mem _ h2)
        · exact Or.inl (h2 ▸ List.mem_cons_self _ _)

theorem mem_dedupAdj (l : List Level) (x : Level) : (x ∈ dedupAdj l ↔ x ∈ l) := by
  cases l with
  | nil => simp [dedupAdj]
  | cons a rest =>
    rw [dedupAdj]
    constructor
    · intro hx
      rcases List.mem_cons.mp hx with h | h
      · exact h ▸ List.mem_cons_self _ _
      · exact List.mem_cons_of_mem _ (dedupAdjGo_subset a rest x h)
    · intro hx
      rcases List.mem_cons.mp hx with h | h
      · exact h ▸ List.mem_cons_self _ _
      · rcases dedupAdjGo_complete a rest x h with h2 | h2
        · exact List.mem_cons_of_mem _ h2
        · exact h2 ▸ List.mem_cons_self _ _

theorem levelLT_trans : ∀ a b c : Level, (levelLE a b ∧ a ≠ b) → (levelLE b c ∧ b ≠ c) →
    (levelLE a c ∧ a ≠ c) := by
  rintro a b c ⟨hab, hne1⟩ ⟨hbc, hne2⟩
  refine ⟨levelLE_trans a b c hab hbc, ?_⟩
  rintro rfl
  exact hne1 (levelLE_antisymm a b hab hbc)

theorem dedupAdjGo_chain (prev : Level) :
    ∀ l, List.Chain levelLE prev l →
      List.Chain (fun a b => levelLE a b ∧ a ≠ b) prev (dedupAdjGo prev l) := by
  intro l
  induction l generalizing prev with
  | nil =>
    intro _
    exact List.Chain.nil
  | cons b rest ih =>
    intro hch
    cases hch with
    | cons hle hrest =>
      rw [dedupAdjGo]
      by_cases hpb : prev = b
      · rw [if_pos hpb]
        subst hpb
        exact ih prev hrest
      · rw [if_neg hpb]
        exact List.Chain.cons ⟨hle, hpb⟩ (ih b hrest)

theorem chainS_all {α : Type} {S : α → α → Prop}
    (hTr : ∀ a b c, S a b → S b c → S a c) :
    ∀ (l : List α) (prev), List.Chain S prev l → ∀ x ∈ l, S prev x := by
  intro l
  induction l with
  | nil =>
    intro prev _ x hx
    simp at hx
  | cons b rest ih =>
    intro prev hch x hx
    cases hch with
    | cons hpb hrest =>
      rcases List.mem_cons.mp hx with h | h
      · exact h ▸ hpb
      · exact hTr _ _ _ hpb (ih b hrest x h)

theorem chainS_nodup {α : Type} {S : α → α → Prop}
    (hTr : ∀ a b c, S a b → S b c → S a c) (hIrr : ∀ a, ¬ S a a) :
    ∀ (l : List α) (prev), List.Chain S prev l → (prev :: l).Nodup := by
  intro l
  induction l with
  | nil =>
    intro prev _
    simp
  | cons b rest ih =>
    intro prev hch
    have hall := chainS_all hTr (b :: rest) prev hch
    cases hch with
    | cons hpb hrest =>
      rw [List.nodup_cons]
      refine ⟨?_, ih b hrest⟩
      intro hmem
      exact hIrr prev (hall prev hmem)

theorem succLoop_cons_true (orig copy : Level) (g : Nat) (dc : Int)
    (rest : List (Nat × Int)) (acc : List Level)
    (h : (moveGroup copy g 0 dc).1 = true) :
    succLoop orig copy ((g, dc) :: rest) acc =
      succLoop orig orig rest (acc ++ [(moveGroup copy g 0 dc).2]) := by
  simp [succLoop, h]

theorem succLoop_cons_false (orig copy : Level) (g : Nat) (dc : Int)
    (rest : List (Nat × Int)) (acc : List Level)
    (h : (moveGroup copy g 0 dc).1 = false) :
    succLoop orig copy ((g, dc) :: rest) acc =
      succLoop orig (moveGroup copy g 0 dc).2 rest acc := by
  simp [succLoop, h]

theorem succLoop_eq (lv : Level) (hfit : Fits8 lv)
    (hmv : ∀ p ∈ interiorScan lv.height lv.width,
      1 ≤ (lv.get p.1 p.2).group → (lv.get p.1 p.2).type = CellType.MOVABLE) :
    ∀ gs acc, (∀ gd ∈ gs, 1 ≤ gd.1) →
      succLoop lv lv gs acc = acc ++ gs.filterMap (fun gd =>
        if (moveGroup lv gd.1 0 gd.2).1 then some (moveGroup lv gd.1 0 gd.2).2
        else none) := by
  intro gs
  induction gs with
  | nil =>
    intro acc _
    simp [succLoop]
  | cons gd rest ih =>
    intro acc hge
    obtain ⟨g, dc⟩ := gd
    have hg1 : 1 ≤ g := hge (g, dc) (List.mem_cons_self _ _)
    have hrest : ∀ x ∈ rest, 1 ≤ x.1 := fun x hx => hge x (List.mem_cons_of_mem _ hx)
    cases hres : (moveGroup lv g 0 dc).1
    · rw [succLoop_cons_false lv lv g dc rest acc hres]
      have hroll : (moveGroup lv g 0 dc).2 = lv :=
        moveGroup_fail_eq lv g 0 dc hfit
          (fun p hp hg => hmv p hp (by rw [hg]; exact hg1)) hres
      rw [hroll, ih acc hrest]
      simp [List.filterMap_cons, hres]
    · rw [succLoop_cons_true lv lv g dc rest acc hres,
        ih (acc ++ [(moveGroup lv g 0 dc).2]) hrest]
      simp [List.filterMap_cons, hres]

theorem mem_gdcList (n g : Nat) (dc : Int) :
    ((g, dc) ∈ gdcList n ↔ (1 ≤ g ∧ g ≤ n ∧ (dc = -1 ∨ dc = 1))) := by
  unfold gdcList
  simp only [List.mem_flatMap, List.mem_range, List.mem_cons, List.mem_singleton,
    Prod.mk.injEq, List.not_mem_nil]
  constructor
  · rintro ⟨k, hk, ⟨rfl, rfl⟩ | ⟨⟨rfl, rfl⟩ | h⟩⟩
    · exact ⟨by omega, by omega, Or.inl rfl⟩
    · exact ⟨by omega, by omega, Or.inr rfl⟩
    · simp at h
  · rintro ⟨h1, h2, h3 | h3⟩
    · exact ⟨g - 1, by omega, Or.inl ⟨by omega, h3.symm ▸ rfl⟩⟩
    · exact ⟨g - 1, by omega, Or.inr (Or.inl ⟨by omega, h3.symm ▸ rfl⟩)⟩

theorem gdcList_ge_one (n : Nat) : ∀ gd ∈ gdcList n, 1 ≤ gd.1 := by
  intro gd hgd
  obtain ⟨g, dc⟩ := gd
  exact ((mem_gdcList n g dc).mp hgd).1

/-! ### Flood fill correctness and the Solved predicate -/

def uvCount (lv : Level) (vis : List (Int × Int)) : Nat :=
  (interiorScan lv.height lv.width).countP fun p =>
    decide ((lv.get p.1 p.2).type = CellType.MOVABLE) && !(decide (p ∈ vis))

def AdjCol (lv : Level) (col : Nat) (p q : Int × Int) : Prop :=
  (lv.get q.1 q.2).type = CellType.MOVABLE ∧ (lv.get q.1 q.2).color = col ∧
    ∃ d ∈ dirs, q = (p.1 + d.1, p.2 + d.2)

def ReachCol (lv : Level) (col : Nat) : (Int × Int) → (Int × Int) → Prop :=
  Relation.ReflTransGen (AdjCol lv col)

def movableInteriorOnly (lv : Level) : Bool :=
  (List.range lv.grid.length).all fun i =>
    (List.range ((lv.grid.getD i []).length)).all fun j =>
      !(decide (((lv.grid.getD i []).getD j Cell.empty).type = CellType.MOVABLE)) ||
        decide ((Int.ofNat i, Int.ofNat j) ∈ interiorScan lv.height lv.width)

theorem movableInteriorOnly_spec (lv : Level) (h : movableInteriorOnly lv = true) :
    ∀ a b : Int, (lv.get a b).type = CellType.MOVABLE →
      (a, b) ∈ interiorScan lv.height lv.width := by
  intro a b hmv
  obtain ⟨ha, hb, hra, hrb⟩ := inBounds_of_movable lv a b hmv
  unfold movableInteriorOnly at h
  rw [List.all_eq_true] at h
  have h1 := h a.toNat (List.mem_range.mpr hra)
  rw [List.all_eq_true] at h1
  have h2 := h1 b.toNat (List.mem_range.mpr hrb)
  have hget : lv.get a b = (lv.grid.getD a.toNat []).getD b.toNat Cell.empty := by
    unfold Level.get
    simp [ha, hb]
  rw [← hget] at h2
  simp only [hmv, decide_True, Bool.not_true, Bool.false_or, decide_eq_true_eq] at h2
  have hco : (Int.ofNat a.toNat, Int.ofNat b.toNat) = (a, b) := by
    simp only [Prod.mk.injEq]
    exact ⟨Int.toNat_of_nonneg ha, Int.toNat_of_nonneg hb⟩
  rwa [hco] at h2

theorem countP_lt_of_witness {α : Type} (p q : α → Bool) :
    ∀ l : List α, (∀ x ∈ l, q x = true → p x = true) →
      ∀ w ∈ l, p w = true → q w = false → l.countP q < l.countP p := by
  intro l
  induction l with
  | nil =>
    intro _ w hw
    simp at hw
  | cons a t ih =>
    intro himp w hw hpw hqw
    rw [List.countP_cons, List.countP_cons]
    rcases List.mem_cons.mp hw with rfl | hwt
    · have hle : t.countP q ≤ t.countP p :=
        List.countP_mono_left (fun x hx hq => himp x (List.mem_cons_of_mem _ hx) hq)
      simp [hpw, hqw]
      omega
    · have hlt := ih (fun x hx hq => himp x (List.mem_cons_of_mem _ hx) hq) w hwt hpw hqw
      by_cases hqa : q a = true
      · have hpa := himp a (List.mem_cons_self _ _) hqa
        simp [hqa, hpa]
        omega
      · have hqa2 : q a = false := by simpa using hqa
        by_cases hpa : p a = true <;> simp [hqa2, hpa] <;> omega

theorem uvCount_append_le (lv : Level) (vis ext : List (Int × Int)) :
    uvCount lv (vis ++ ext) ≤ uvCount lv vis := by
  unfold uvCount
  apply List.countP_mono_left
  intro x _ h
  simp only [Bool.and_eq_true, Bool.not_eq_true', decide_eq_true_eq,
    decide_eq_false_iff_not] at h ⊢
  exact ⟨h.1, fun hc => h.2 (List.mem_append_left _ hc)⟩

theorem uvCount_append_lt (lv : Level) (vis : List (Int × Int)) (r c : Int)
    (hin : (r, c) ∈ interiorScan lv.height lv.width)
    (hmv : (lv.get r c).type = CellType.MOVABLE) (hnv : (r, c) ∉ vis) :
    uvCount lv (vis ++ [(r, c)]) < uvCount lv vis := by
  unfold uvCount
  apply countP_lt_of_witness _ _ _ ?_ (r, c) hin ?_ ?_
  · intro x _ h
    simp only [Bool.and_eq_true, Bool.not_eq_true', decide_eq_true_eq,
      decide_eq_false_iff_not] at h ⊢
    exact ⟨h.1, fun hc => h.2 (List.mem_append_left _ hc)⟩
  · simp [hmv, hnv]
  · simp

theorem adjCol_symm {lv : Level} {col : Nat} {p q : Int × Int}
    (hp : (lv.get p.1 p.2).type = CellType.MOVABLE ∧ (lv.get p.1 p.2).color = col)
    (h : AdjCol lv col p q) : AdjCol lv col q p := by
  obtain ⟨hmv, hcol, d, hd, heq⟩ := h
  refine ⟨hp.1, hp.2, (-d.1, -d.2), ?_, ?_⟩
  · have hd4 : d = ((0 : Int), (-1 : Int)) ∨ d = (0, 1) ∨ d = (1, 0) ∨ d = (-1, 0) := by
      simpa [dirs] using hd
    rcases hd4 with rfl | rfl | rfl | rfl <;> norm_num [dirs]
  · rw [heq]
    obtain ⟨p1, p2⟩ := p
    obtain ⟨d1, d2⟩ := d
    simp only [Prod.mk.injEq]
    constructor <;> omega

theorem reachCol_movable {lv : Level} {col : Nat} {p x : Int × Int}
    (hp : (lv.get p.1 p.2).type = CellType.MOVABLE ∧ (lv.get p.1 p.2).color = col)
    (h : ReachCol lv col p x) :
    (lv.get x.1 x.2).type = CellType.MOVABLE ∧ (lv.get x.1 x.2).color = col := by
  induction h with
  | refl => exact hp
  | tail hab hbc ih => exact ⟨hbc.1, hbc.2.1⟩

theorem reachCol_symm {lv : Level} {col : Nat} {p x : Int × Int}
    (hp : (lv.get p.1 p.2).type = CellType.MOVABLE ∧ (lv.get p.1 p.2).color = col)
    (h : ReachCol lv col p x) : ReachCol lv col x p := by
  induction h with
  | refl => exact Relation.ReflTransGen.refl
  | tail hab hbc ih =>
    have hb := reachCol_movable hp hab
    exact Relation.ReflTransGen.head (adjCol_symm hb hbc) ih

theorem mcvGo_step (lv : Level) (fuel : Nat)
    (hSub : ∀ vis r c, (lv.get r c).type = CellType.MOVABLE → (r, c) ∉ vis →
      uvCount lv vis < fuel →
      ∃ new, markColorVisitedF fuel lv vis r c = vis ++ new ∧
        (r, c) ∈ new ∧
        (∀ x ∈ new, ReachCol lv (lv.get r c).color (r, c) x) ∧
        (∀ x ∈ new, ∀ t, AdjCol lv (lv.get r c).color x t → t ∈ vis ++ new))
    (col : Nat) (vis : List (Int × Int)) (p : Int × Int) (q1 q2 : Int)
    (hq : ∃ d ∈ dirs, (q1, q2) = (p.1 + d.1, p.2 + d.2))
    (hcnt : uvCount lv vis < fuel) :
    ∃ newq, mcvGo (markColorVisitedF fuel lv) lv col vis q1 q2 = vis ++ newq ∧
      (∀ x ∈ newq, ((lv.get p.1 p.2).type = CellType.MOVABLE ∧
        (lv.get p.1 p.2).color = col) → ReachCol lv col p x) ∧
      (∀ x ∈ newq, ∀ t, AdjCol lv col x t → t ∈ vis ++ newq) ∧
      ((lv.get q1 q2).type = CellType.MOVABLE → (lv.get q1 q2).color = col →
        (q1, q2) ∈ vis ++ newq) := by
  unfold mcvGo
  by_cases hg : (lv.get q1 q2).type = CellType.MOVABLE ∧ (lv.get q1 q2).color = col ∧
      (q1, q2) ∉ vis
  · rw [if_pos hg]
    obtain ⟨newq, heq, hmem, hreach, hclose⟩ := hSub vis q1 q2 hg.1 hg.2.2 hcnt
    have hcq : (lv.get q1 q2).color = col := hg.2.1
    refine ⟨newq, heq, ?_, ?_, fun _ _ => List.mem_append.mpr (Or.inr hmem)⟩
    · intro x hx hp
      have hr := hreach x hx
      rw [hcq] at hr
      exact Relation.ReflTransGen.head ⟨hg.1, hcq, hq⟩ hr
    · intro x hx t ht
      exact hclose x hx t (by rw [hcq]; exact ht)
  · rw [if_neg hg]
    refine ⟨[], by simp, by simp, by simp, ?_⟩
    intro hmv hcol
    have hv : (q1, q2) ∈ vis := by
      by_contra hnv
      exact hg ⟨hmv, hcol, hnv⟩
    simp [hv]

theorem flood_ok (lv : Level)
    (hwf : ∀ a b : Int, (lv.get a b).type = CellType.MOVABLE →
      (a, b) ∈ interiorScan lv.height lv.width) :
    ∀ fuel vis r c, (lv.get r c).type = CellType.MOVABLE → (r, c) ∉ vis →
      uvCount lv vis < fuel →
      ∃ new, markColorVisitedF fuel lv vis r c = vis ++ new ∧
        (r, c) ∈ new ∧
        (∀ x ∈ new, ReachCol lv (lv.get r c).color (r, c) x) ∧
        (∀ x ∈ new, ∀ t, AdjCol lv (lv.get r c).color x t → t ∈ vis ++ new) := by
  intro fuel
  induction fuel with
  | zero =>
    intro vis r c _ _ h
    omega
  | succ fuel ih =>
    intro vis r c hmv hnv hcnt
    have hstart : (lv.get r c).type = CellType.MOVABLE ∧
        (lv.get r c).color = (lv.get r c).color := ⟨hmv, rfl⟩
    have hcnt0 : uvCount lv (vis ++ [(r, c)]) < fuel := by
      have := uvCount_append_lt lv vis r c (hwf r c hmv) hmv hnv
      omega
    have hqA : ∃ d ∈ dirs, ((r, c - 1) : Int × Int) = ((r, c).1 + d.1, (r, c).2 + d.2) := by
      exact ⟨(0, -1), by norm_num [dirs], by norm_num [Prod.ext_iff, sub_eq_add_neg]⟩
    have hqB : ∃ d ∈ dirs, ((r, c + 1) : Int × Int) = ((r, c).1 + d.1, (r, c).2 + d.2) := by
      exact ⟨(0, 1), by norm_num [dirs], by norm_num [Prod.ext_iff, sub_eq_add_neg]⟩
    have hqC : ∃ d ∈ dirs, ((r + 1, c) : Int × Int) = ((r, c).1 + d.1, (r, c).2 + d.2) := by
      exact ⟨(1, 0), by norm_num [dirs], by norm_num [Prod.ext_iff, sub_eq_add_neg]⟩
    have hqD : ∃ d ∈ dirs, ((r - 1, c) : Int × Int) = ((r, c).1 + d.1, (r, c).2 + d.2) := by
      exact ⟨(-1, 0), by norm_num [dirs], by norm_num [Prod.ext_iff, sub_eq_add_neg]⟩
    obtain ⟨n1, e1, hr1, hc1, hl1⟩ := mcvGo_step lv fuel ih ((lv.get r c).color)
      (vis ++ [(r, c)]) (r, c) r (c - 1) hqA hcnt0
    have hcnt1 : uvCount lv ((vis ++ [(r, c)]) ++ n1) < fuel := by
      have h := uvCount_append_le lv (vis ++ [(r, c)]) n1
      omega
    obtain ⟨n2, e2, hr2, hc2, hl2⟩ := mcvGo_step lv fuel ih ((lv.get r c).color)
      ((vis ++ [(r, c)]) ++ n1) (r, c) r (c + 1) hqB hcnt1
    have hcnt2 : uvCount lv (((vis ++ [(r, c)]) ++ n1) ++ n2) < fuel := by
      have h := uvCount_append_le lv ((vis ++ [(r, c)]) ++ n1) n2
      omega
    obtain ⟨n3, e3, hr3, hc3, hl3⟩ := mcvGo_step lv fuel ih ((lv.get r c).color)
      ((((vis ++ [(r, c)]) ++ n1) ++ n2)) (r, c) (r + 1) c hqC hcnt2
    have hcnt3 : uvCount lv ((((vis ++ [(r, c)]) ++ n1) ++ n2) ++ n3) < fuel := by
      have h := uvCount_append_le lv (((vis ++ [(r, c)]) ++ n1) ++ n2) n3
      omega
    obtain ⟨n4, e4, hr4, hc4, hl4⟩ := mcvGo_step lv fuel ih ((lv.get r c).color)
      (((((vis ++ [(r, c)]) ++ n1) ++ n2)) ++ n3) (r, c) (r - 1) c hqD hcnt3
    refine ⟨(r, c) :: (n1 ++ n2 ++ n3 ++ n4), ?_, List.mem_cons_self _ _, ?_, ?_⟩
    · simp only [markColorVisitedF]
      rw [e1, e2, e3, e4]
      simp [List.append_assoc]
    · intro x hx
      rcases List.mem_cons.mp hx with rfl | hx2
      · exact Relation.ReflTransGen.refl
      · rcases List.mem_append.mp hx2 with hx3 | hx4
        · rcases List.mem_append.mp hx3 with hx5 | hx6
          · rcases List.mem_append.mp hx5 with hx7 | hx8
            · exact hr1 x hx7 hstart
            · exact hr2 x hx8 hstart
          · exact hr3 x hx6 hstart
        · exact hr4 x hx4 hstart
    · intro x hx t ht
      have hlift : ∀ s : List (Int × Int),
          t ∈ (vis ++ [(r, c)]) ++ s →
          (∀ y ∈ s, y ∈ n1 ++ n2 ++ n3 ++ n4) →
          t ∈ vis ++ (r, c) :: (n1 ++ n2 ++ n3 ++ n4) := by
        intro s hts hsub
        rcases List.mem_append.mp hts with h1 | h2
        · rcases List.mem_append.mp h1 with h3 | h4
          · exact List.mem_append_left _ h3
          · refine List.mem_append_right _ ?_
            rcases List.mem_singleton.mp h4 with rfl
            exact List.mem_cons_self _ _
        · exact List.mem_append_right _ (List.mem_cons_of_mem _ (hsub t h2))
      rcases List.mem_cons.mp hx with rfl | hx2
      · obtain ⟨htm, htc, d, hd, heq⟩ := ht
        have hd4 : d = ((0 : Int), (-1 : Int)) ∨ d = (0, 1) ∨ d = (1, 0) ∨
            d = (-1, 0) := by simpa [dirs] using hd
        rcases hd4 with rfl | rfl | rfl | rfl
        · have htq : t = (r, c - 1) := by
            rw [heq]
            simp only [Prod.mk.injEq]
            constructor <;> ring
          subst htq
          have := hl1 htm htc
          refine hlift n1 this ?_
          intro y hy
          exact List.mem_append_left _ (List.mem_append_left _ (List.mem_append_left _ hy))
        · have htq : t = (r, c + 1) := by
            rw [heq]
            simp only [Prod.mk.injEq]
            constructor <;> ring
          subst htq
          have h0 := hl2 htm htc
          rw [List.append_assoc (vis ++ [(r, c)]) n1 n2] at h0
          refine hlift (n1 ++ n2) h0 ?_
          intro y hy
          exact List.mem_append_left _ (List.mem_append_left _ hy)
        · have htq : t = (r + 1, c) := by
            rw [heq]
            simp only [Prod.mk.injEq]
            constructor <;> ring
          subst htq
          have h0 := hl3 htm htc
          rw [List.append_assoc ((vis ++ [(r, c)]) ++ n1) n2 n3,
            List.append_assoc (vis ++ [(r, c)]) n1 (n2 ++ n3)] at h0
          refine hlift (n1 ++ (n2 ++ n3)) h0 ?_
          intro y hy
          rcases List.mem_append.mp hy with hy1 | hy2
          · exact List.mem_append_left _ (List.mem_append_left _
              (List.mem_append_left _ hy1))
          · rcases List.mem_append.mp hy2 with hy3 | hy4
            · exact List.mem_append_left _
                (List.mem_append_left _ (List.mem_append_right _ hy3))
            · exact List.mem_append_left _ (List.mem_append_right _ hy4)
        · have htq : t = (r - 1, c) := by
            rw [heq]
            simp only [Prod.mk.injEq]
            constructor <;> ring
          subst htq
          have h0 := hl4 htm htc
          rw [List.append_assoc (((vis ++ [(r, c)]) ++ n1) ++ n2) n3 n4,
            List.append_assoc ((vis ++ [(r, c)]) ++ n1) n2 (n3 ++ n4),
            List.append_assoc (vis ++ [(r, c)]) n1 (n2 ++ (n3 ++ n4))] at h0
          refine hlift (n1 ++ (n2 ++ (n3 ++ n4))) h0 ?_
          intro y hy
          rcases List.mem_append.mp hy with hy1 | hy2
          · exact List.mem_append_left _ (List.mem_append_left _
              (List.mem_append_left _ hy1))
          · rcases List.mem_append.mp hy2 with hy3 | hy4
            · exact List.mem_append_left _
                (List.mem_append_left _ (List.mem_append_right _ hy3))
            · rcases List.mem_append.mp hy4 with hy5 | hy6
              · exact List.mem_append_left _ (List.mem_append_right _ hy5)
              · exact List.mem_append_right _ hy6
      · have hmm : ∀ s1 : List (Int × Int), t ∈ s1 ++ x :: [] → True := fun _ _ => trivial
        rcases List.mem_append.mp hx2 with hx3 | hx4
        · rcases List.mem_append.mp hx3 with hx5 | hx6
          · rcases List.mem_append.mp hx5 with hx7 | hx8
            · have h0 := hc1 x hx7 t ht
              refine hlift n1 h0 ?_
              intro y hy
              exact List.mem_append_left _ (List.mem_append_left _
                (List.mem_append_left _ hy))
            · have h0 := hc2 x hx8 t ht
              rw [List.append_assoc (vis ++ [(r, c)]) n1 n2] at h0
              refine hlift (n1 ++ n2) h0 ?_
              intro y hy
              exact List.mem_append_left _ (List.mem_append_left _ hy)
          · have h0 := hc3 x hx6 t ht
            rw [List.append_assoc ((vis ++ [(r, c)]) ++ n1) n2 n3,
              List.append_assoc (vis ++ [(r, c)]) n1 (n2 ++ n3)] at h0
            refine hlift (n1 ++ (n2 ++ n3)) h0 ?_
            intro y hy
            rcases List.mem_append.mp hy with hy1 | hy2
            · exact List.mem_append_left _ (List.mem_append_left _
                (List.mem_append_left _ hy1))
            · rcases List.mem_append.mp hy2 with hy3 | hy4
              · exact List.mem_append_left _
                  (List.mem_append_left _ (List.mem_append_right _ hy3))
              · exact List.mem_append_left _ (List.mem_append_right _ hy4)
        · have h0 := hc4 x hx4 t ht
          rw [List.append_assoc (((vis ++ [(r, c)]) ++ n1) ++ n2) n3 n4,
            List.append_assoc ((vis ++ [(r, c)]) ++ n1) n2 (n3 ++ n4),
            List.append_assoc (vis ++ [(r, c)]) n1 (n2 ++ (n3 ++ n4))] at h0
          refine hlift (n1 ++ (n2 ++ (n3 ++ n4))) h0 ?_
          intro y hy
          rcases List.mem_append.mp hy with hy1 | hy2
          · exact List.mem_append_left _ (List.mem_append_left _
              (List.mem_append_left _ hy1))
          · rcases List.mem_append.mp hy2 with hy3 | hy4
            · exact List.mem_append_left _
                (List.mem_append_left _ (List.mem_append_right _ hy3))
            · rcases List.mem_append.mp hy4 with hy5 | hy6
              · exact List.mem_append_left _ (List.mem_append_right _ hy5)
              · exact List.mem_append_right _ hy6



theorem countP_flatMap {α β : Type} (p : β → Bool) (f : α → List β) :
    ∀ l : List α, (l.flatMap f).countP p = (l.map fun a => (f a).countP p).sum := by
  intro l
  induction l with
  | nil => simp
  | cons a t ih => simp [List.flatMap_cons, List.countP_append, ih]

theorem countP_range_getD {α : Type} (P : α → Bool) (d : α) (hd : P d = false) :
    ∀ (row : List α) (k n : Nat),
      (List.range n).countP (fun c => P (row.getD (c + k) d)) ≤ row.countP P := by
  intro row
  induction row with
  | nil =>
    intro k n
    have hz : (List.range n).countP (fun c => P (([] : List α).getD (c + k) d)) = 0 := by
      rw [List.countP_eq_zero]
      intro c _
      simp [hd]
    omega
  | cons a t ih =>
    intro k n
    cases k with
    | zero =>
      cases n with
      | zero => simp
      | succ m =>
        rw [List.range_succ_eq_map, List.countP_cons, List.countP_map]
        have he : ∀ c : Nat, ((a :: t).getD (c + 1 + 0) d) = t.getD (c + 0) d :=
          fun c => rfl
        have h1 : (List.range m).countP
            ((fun c => P ((a :: t).getD (c + 0) d)) ∘ (fun x => x + 1)) =
            (List.range m).countP (fun c => P (t.getD (c + 0) d)) := by
          apply List.countP_congr
          intro c _
          exact Iff.rfl
        rw [h1]
        have h2 := ih 0 m
        rw [List.countP_cons]
        have h3 : ((a :: t).getD (0 + 0) d) = a := rfl
        rw [h3]
        omega
    | succ k2 =>
      have h1 : (List.range n).countP (fun c => P ((a :: t).getD (c + (k2 + 1)) d)) =
          (List.range n).countP (fun c => P (t.getD (c + k2) d)) := by
        apply List.countP_congr
        intro c _
        exact Iff.rfl
      rw [h1, List.countP_cons]
      have h2 := ih k2 n
      omega

theorem sum_range_getD_le {α : Type} (g : List α → Nat) (hg : g [] = 0) :
    ∀ (l : List (List α)) (k n : Nat),
      ((List.range n).map (fun i => g (l.getD (i + k) []))).sum ≤ (l.map g).sum := by
  intro l
  induction l with
  | nil =>
    intro k n
    have hz : ((List.range n).map (fun i => g (([] : List (List α)).getD (i + k) []))).sum
        = 0 := by
      apply List.sum_eq_zero
      intro x hx
      rw [List.mem_map] at hx
      obtain ⟨i, _, hi⟩ := hx
      rw [← hi]
      exact hg
    omega
  | cons a t ih =>
    intro k n
    cases k with
    | zero =>
      cases n with
      | zero => simp
      | succ m =>
        rw [List.range_succ_eq_map, List.map_cons, List.sum_cons, List.map_map]
        have h1 : ((List.range m).map
            ((fun i => g ((a :: t).getD (i + 0) [])) ∘ (fun x => x + 1))).sum =
            ((List.range m).map (fun i => g (t.getD (i + 0) []))).sum := rfl
        rw [h1]
        have h2 := ih 0 m
        simp only [List.map_cons, List.sum_cons]
        have h3 : ((a :: t).getD (0 + 0) []) = a := rfl
        rw [h3]
        omega
    | succ k2 =>
      have h1 : ((List.range n).map (fun i => g ((a :: t).getD (i + (k2 + 1)) []))).sum =
          ((List.range n).map (fun i => g (t.getD (i + k2) []))).sum := rfl
      have h2 := ih k2 n
      simp only [List.map_cons, List.sum_cons]
      omega

theorem scanMovable_le (lv : Level) :
    (interiorScan lv.height lv.width).countP
      (fun p => decide ((lv.get p.1 p.2).type = CellType.MOVABLE)) ≤ movableCount lv := by
  unfold interiorScan movableCount
  rw [countP_flatMap]
  have hrow : ∀ r ∈ List.range (lv.height - 2),
      (((List.range (lv.width - 2)).map fun c =>
          (Int.ofNat r + 1, Int.ofNat c + 1)).countP
        fun p => decide ((lv.get p.1 p.2).type = CellType.MOVABLE)) ≤
      ((lv.grid.getD (r + 1) []).filter fun x =>
        decide (x.type = CellType.MOVABLE)).length := by
    intro r _
    rw [List.countP_map]
    have hget : ∀ c : Nat, lv.get (Int.ofNat r + 1) (Int.ofNat c + 1) =
        (lv.grid.getD (r + 1) []).getD (c + 1) Cell.empty := by
      intro c
      unfold Level.get
      have h1 : (0 : Int) ≤ Int.ofNat r + 1 ∧ (0 : Int) ≤ Int.ofNat c + 1 := by
        simp only [Int.ofNat_eq_natCast]
        constructor <;> omega
      rw [if_pos h1]
      have h2 : (Int.ofNat r + 1).toNat = r + 1 := by
        simp only [Int.ofNat_eq_natCast]
        omega
      have h3 : (Int.ofNat c + 1).toNat = c + 1 := by
        simp only [Int.ofNat_eq_natCast]
        omega
      rw [h2, h3]
    have h4 : (List.range (lv.width - 2)).countP
        ((fun p : Int × Int => decide ((lv.get p.1 p.2).type = CellType.MOVABLE)) ∘
          fun c : Nat => (Int.ofNat r + 1, Int.ofNat c + 1)) =
        (List.range (lv.width - 2)).countP (fun c =>
          (fun x => decide (x.type = CellType.MOVABLE))
            ((lv.grid.getD (r + 1) []).getD (c + 1) Cell.empty)) := by
      apply List.countP_congr
      intro c _
      simp only [Function.comp_apply]
      rw [hget c]
    refine le_trans (le_of_eq h4) ?_
    rw [← List.countP_eq_length_filter]
    exact countP_range_getD (fun x => decide (x.type = CellType.MOVABLE)) Cell.empty
      (by simp [Cell.empty]) _ 1 (lv.width - 2)
  calc ((List.range (lv.height - 2)).map fun r =>
        (((List.range (lv.width - 2)).map fun c =>
            (Int.ofNat r + 1, Int.ofNat c + 1)).countP
          fun p => decide ((lv.get p.1 p.2).type = CellType.MOVABLE))).sum
      ≤ ((List.range (lv.height - 2)).map fun r =>
          ((lv.grid.getD (r + 1) []).filter fun x =>
            decide (x.type = CellType.MOVABLE)).length).sum := by
        apply List.sum_le_sum
        intro r hr
        exact hrow r hr
    _ ≤ (lv.grid.map fun row =>
          (row.filter fun x => decide (x.type = CellType.MOVABLE)).length).sum :=
        sum_range_getD_le
          (fun row => (row.filter fun x => decide (x.type = CellType.MOVABLE)).length)
          rfl lv.grid 1 (lv.height - 2)

theorem uvCount_le_movable (lv : Level) (vis : List (Int × Int)) :
    uvCount lv vis ≤ movableCount lv := by
  unfold uvCount
  have h1 : ∀ x ∈ interiorScan lv.height lv.width,
      (decide ((lv.get x.1 x.2).type = CellType.MOVABLE) &&
        !(decide (x ∈ vis))) = true →
      decide ((lv.get x.1 x.2).type = CellType.MOVABLE) = true := by
    intro x _ h
    rw [Bool.and_eq_true] at h
    exact h.1
  calc (interiorScan lv.height lv.width).countP _
      ≤ (interiorScan lv.height lv.width).countP
        (fun x => decide ((lv.get x.1 x.2).type = CellType.MOVABLE)) :=
        List.countP_mono_left h1
    _ ≤ movableCount lv := scanMovable_le lv

theorem flood_complete {lv : Level} {col : Nat} {vis new : List (Int × Int)}
    {s : Int × Int}
    (hclose : ∀ x ∈ new, ∀ t, AdjCol lv col x t → t ∈ vis ++ new)
    (hstart : s ∈ new) :
    ∀ x, Relation.ReflTransGen (fun a b => AdjCol lv col a b ∧ b ∉ vis) s x →
      x ∈ new := by
  intro x h
  induction h with
  | refl => exact hstart
  | tail hab hbc ih =>
    rename_i b q
    have hq := hclose b ih q hbc.1
    rcases List.mem_append.mp hq with h2 | h2
    · exact absurd h2 hbc.2
    · exact h2

theorem reach_avoid {lv : Level} {col : Nat} {vis : List (Int × Int)}
    {s x : Int × Int} (h : ReachCol lv col s x)
    (hnv : ∀ t : Int × Int, (lv.get t.1 t.2).color = col → t ∉ vis) :
    Relation.ReflTransGen (fun a b => AdjCol lv col a b ∧ b ∉ vis) s x := by
  induction h with
  | refl => exact Relation.ReflTransGen.refl
  | tail hab hbc ih =>
    exact Relation.ReflTransGen.tail ih ⟨hbc, hnv _ hbc.2.1⟩

theorem solvedLoop_true_conn (lv : Level)
    (hwf : ∀ a b : Int, (lv.get a b).type = CellType.MOVABLE →
      (a, b) ∈ interiorScan lv.height lv.width) :
    ∀ ps vis cols,
      (∀ x ∈ vis, (lv.get x.1 x.2).type = CellType.MOVABLE ∧
        0 < (lv.get x.1 x.2).color) →
      (∀ x ∈ vis, (lv.get x.1 x.2).color ∈ cols) →
      (∀ x ∈ vis, ∀ t, AdjCol lv (lv.get x.1 x.2).color x t → t ∈ vis) →
      (∀ x ∈ vis, ∀ y ∈ vis, (lv.get x.1 x.2).color = (lv.get y.1 y.2).color →
        ReachCol lv (lv.get x.1 x.2).color x y) →
      solvedLoop lv vis cols ps = true →
      ∀ p q : Int × Int, (p ∈ ps ∨ p ∈ vis) → (q ∈ ps ∨ q ∈ vis) →
        (lv.get p.1 p.2).type = CellType.MOVABLE →
        (lv.get q.1 q.2).type = CellType.MOVABLE →
        0 < (lv.get p.1 p.2).color →
        (lv.get p.1 p.2).color = (lv.get q.1 q.2).color →
        ReachCol lv (lv.get p.1 p.2).color p q := by
  intro ps
  induction ps with
  | nil =>
    intro vis cols hH1 hH3 hH4 hH2 _ p q hp hq hpm hqm hpc hpq
    rcases hp with hp | hp
    · simp at hp
    rcases hq with hq | hq
    · simp at hq
    exact hH2 p hp q hq hpq
  | cons hd rest ih =>
    intro vis cols hH1 hH3 hH4 hH2 hloop p q hp hq hpm hqm hpc hpq
    obtain ⟨r, c⟩ := hd
    rw [solvedLoop] at hloop
    by_cases hg : (r, c) ∉ vis ∧ (lv.get r c).type = CellType.MOVABLE ∧
        0 < (lv.get r c).color
    · rw [if_pos hg] at hloop
      by_cases hcol : (lv.get r c).color ∈ cols
      · rw [if_pos hcol] at hloop
        exact absurd hloop (by simp)
      · rw [if_neg hcol] at hloop
        have hcnt : uvCount lv vis < movableCount lv + 1 := by
          have hle := uvCount_le_movable lv vis
          omega
        obtain ⟨new, hfl, hmem, hreach, hclose⟩ :=
          flood_ok lv hwf (movableCount lv + 1) vis r c hg.2.1 hg.1 hcnt
        rw [hfl] at hloop
        have hstart2 : (lv.get r c).type = CellType.MOVABLE ∧
            (lv.get r c).color = (lv.get r c).color := ⟨hg.2.1, rfl⟩
        have hnewf : ∀ x ∈ new, (lv.get x.1 x.2).type = CellType.MOVABLE ∧
            (lv.get x.1 x.2).color = (lv.get r c).color := by
          intro x hx
          exact reachCol_movable hstart2 (hreach x hx)
        have hH1b : ∀ x ∈ vis ++ new, (lv.get x.1 x.2).type = CellType.MOVABLE ∧
            0 < (lv.get x.1 x.2).color := by
          intro x hx
          rcases List.mem_append.mp hx with h2 | h2
          · exact hH1 x h2
          · obtain ⟨ha, hb⟩ := hnewf x h2
            exact ⟨ha, by rw [hb]; exact hg.2.2⟩
        have hH3b : ∀ x ∈ vis ++ new,
            (lv.get x.1 x.2).color ∈ (lv.get r c).color :: cols := by
          intro x hx
          rcases List.mem_append.mp hx with h2 | h2
          · exact List.mem_cons_of_mem _ (hH3 x h2)
          · rw [(hnewf x h2).2]
            exact List.mem_cons_self _ _
        have hH4b : ∀ x ∈ vis ++ new, ∀ t,
            AdjCol lv (lv.get x.1 x.2).color x t → t ∈ vis ++ new := by
          intro x hx t ht
          rcases List.mem_append.mp hx with h2 | h2
          · exact List.mem_append_left _ (hH4 x h2 t ht)
          · rw [(hnewf x h2).2] at ht
            exact hclose x h2 t ht
        have hH2b : ∀ x ∈ vis ++ new, ∀ y ∈ vis ++ new,
            (lv.get x.1 x.2).color = (lv.get y.1 y.2).color →
            ReachCol lv (lv.get x.1 x.2).color x y := by
          intro x hx y hy hxy
          rcases List.mem_append.mp hx with h2 | h2
          · rcases List.mem_append.mp hy with h3 | h3
            · exact hH2 x h2 y h3 hxy
            · exfalso
              have hcx := hH3 x h2
              rw [hxy, (hnewf y h3).2] at hcx
              exact hcol hcx
          · rcases List.mem_append.mp hy with h3 | h3
            · exfalso
              have hcy := hH3 y h3
              rw [← hxy, (hnewf x h2).2] at hcy
              exact hcol hcy
            · have hx2 := hreach x h2
              have hy2 := hreach y h3
              have hsym := reachCol_symm hstart2 hx2
              rw [(hnewf x h2).2]
              exact hsym.trans hy2
        have := ih (vis ++ new) ((lv.get r c).color :: cols)
          hH1b hH3b hH4b hH2b hloop p q ?_ ?_ hpm hqm hpc hpq
        · exact this
        · rcases hp with hp | hp
          · rcases List.mem_cons.mp hp with rfl | hp2
            · exact Or.inr (List.mem_append_right _ hmem)
            · exact Or.inl hp2
          · exact Or.inr (List.mem_append_left _ hp)
        · rcases hq with hq | hq
          · rcases List.mem_cons.mp hq with rfl | hq2
            · exact Or.inr (List.mem_append_right _ hmem)
            · exact Or.inl hq2
          · exact Or.inr (List.mem_append_left _ hq)
    · rw [if_neg hg] at hloop
      have hin : ∀ x : Int × Int, x = (r, c) →
          (lv.get x.1 x.2).type = CellType.MOVABLE → 0 < (lv.get x.1 x.2).color →
          x ∈ vis := by
        rintro x rfl hxm hxc
        by_contra hnv
        exact hg ⟨hnv, hxm, hxc⟩
      have := ih vis cols hH1 hH3 hH4 hH2 hloop p q ?_ ?_ hpm hqm hpc hpq
      · exact this
      · rcases hp with hp | hp
        · rcases List.mem_cons.mp hp with rfl | hp2
          · exact Or.inr (hin _ rfl hpm hpc)
          · exact Or.inl hp2
        · exact Or.inr hp
      · rcases hq with hq | hq
        · rcases List.mem_cons.mp hq with rfl | hq2
          · exact Or.inr (hin _ rfl hqm (by rw [← hpq]; exact hpc))
          · exact Or.inl hq2
        · exact Or.inr hq

theorem solvedLoop_conn_true (lv : Level)
    (hwf : ∀ a b : Int, (lv.get a b).type = CellType.MOVABLE →
      (a, b) ∈ interiorScan lv.height lv.width)
    (hconn : ∀ p q : Int × Int, (lv.get p.1 p.2).type = CellType.MOVABLE →
      (lv.get q.1 q.2).type = CellType.MOVABLE →
      0 < (lv.get p.1 p.2).color →
      (lv.get p.1 p.2).color = (lv.get q.1 q.2).color →
      ReachCol lv (lv.get p.1 p.2).color p q) :
    ∀ ps vis cols,
      (∀ x ∈ vis, (lv.get x.1 x.2).color ∈ cols) →
      (∀ x : Int × Int, (lv.get x.1 x.2).type = CellType.MOVABLE →
        0 < (lv.get x.1 x.2).color → (lv.get x.1 x.2).color ∈ cols → x ∈ vis) →
      solvedLoop lv vis cols ps = true := by
  intro ps
  induction ps with
  | nil =>
    intro vis cols _ _
    rw [solvedLoop]
  | cons hd rest ih =>
    intro vis cols hH3 hK
    obtain ⟨r, c⟩ := hd
    rw [solvedLoop]
    by_cases hg : (r, c) ∉ vis ∧ (lv.get r c).type = CellType.MOVABLE ∧
        0 < (lv.get r c).color
    · rw [if_pos hg]
      by_cases hcol : (lv.get r c).color ∈ cols
      · exact absurd (hK (r, c) hg.2.1 hg.2.2 hcol) hg.1
      · rw [if_neg hcol]
        have hcnt : uvCount lv vis < movableCount lv + 1 := by
          have hle := uvCount_le_movable lv vis
          omega
        obtain ⟨new, hfl, hmem, hreach, hclose⟩ :=
          flood_ok lv hwf (movableCount lv + 1) vis r c hg.2.1 hg.1 hcnt
        rw [hfl]
        have hstart2 : (lv.get r c).type = CellType.MOVABLE ∧
            (lv.get r c).color = (lv.get r c).color := ⟨hg.2.1, rfl⟩
        have hnewf : ∀ x ∈ new, (lv.get x.1 x.2).type = CellType.MOVABLE ∧
            (lv.get x.1 x.2).color = (lv.get r c).color := by
          intro x hx
          exact reachCol_movable hstart2 (hreach x hx)
        apply ih (vis ++ new) ((lv.get r c).color :: cols)
        · intro x hx
          rcases List.mem_append.mp hx with h2 | h2
          · exact List.mem_cons_of_mem _ (hH3 x h2)
          · rw [(hnewf x h2).2]
            exact List.mem_cons_self _ _
        · intro x hxm hxc hxcol
          rcases List.mem_cons.mp hxcol with hxc2 | hxc2
          · have hrx := hconn (r, c) x hg.2.1 hxm hg.2.2 hxc2.symm
            have hnv : ∀ t : Int × Int, (lv.get t.1 t.2).color = (lv.get r c).color →
                t ∉ vis := by
              intro t htc htv
              have := hH3 t htv
              rw [htc] at this
              exact hcol this
            have hxin := flood_complete hclose hmem x (reach_avoid hrx hnv)
            exact List.mem_append_right _ hxin
          · exact List.mem_append_left _ (hK x hxm hxc hxc2)
    · rw [if_neg hg]
      exact ih vis cols hH3 hK

/-! ### Breadth-first search: predecessor chains, depth, and the loop invariant -/

/-- A small level used to witness the claims: the spec's end-to-end
scenario 1, the row `"1 1"`. -/
def levelRow11 : Level := Level.ofLines [['1', ' ', '1']]

/-- C2 (amended): for every grid state whose coordinates fit the `uint8_t`
point records (at most 256 rows and columns), every group id present in it
(on movable cells, as the data model requires), and every horizontal
direction, if `AttemptGroupMove` (`MoveGroup`) returns failure, the grid
state after the call is structurally equal to the state before the call —
no partial mutation is observable.  Without the size bound the rollback
writes the grabbed cells back at truncated coordinates and the guarantee
fails (`C2_rollback_truncation_cex`). -/
theorem C2_rollback_exactness (lv : Level) (g : Nat) (dc : Int)
    (hfit : Fits8 lv)
    (hdc : dc = -1 ∨ dc = 1)
    (hpres : ∃ p ∈ interiorScan lv.height lv.width, (lv.get p.1 p.2).group = g)
    (hmv : ∀ p ∈ interiorScan lv.height lv.width,
      (lv.get p.1 p.2).group = g → (lv.get p.1 p.2).type = CellType.MOVABLE)
    (hfail : (moveGroup lv g 0 dc).1 = false) :
    (moveGroup lv g 0 dc).2 = lv :=
  moveGroup_fail_eq lv g 0 dc hfit hmv hfail

/-- Witness for C2: pushing the left block of `"1 1"` against the left wall
fails, and the state is unchanged. -/
theorem C2_rollback_exactness_witness : (moveGroup levelRow11 1 0 (-1)).2 = levelRow11 :=
  C2_rollback_exactness levelRow11 1 (-1) (by decide) (Or.inl rfl)
    (by decide) (by decide) (by decide)

/-- C9 (amended): on every grid whose coordinates fit the `uint8_t` point
records, in every call to the place step of `TryMove` — committing a
successful grab with the push delta, or rolling back a failed one with
delta zero — every destination cell written is open at the time of the
write: the `assert(grid[r2][c2].type == Cell::OPEN)` checks all pass,
because the grab's pre-collision detection guarantees no destination is
occupied by an unmoved wall or un-grabbed block.  On wider grids the
narrowed write-back coordinates make the assert genuinely fail
(`C9_place_step_assert_fails_cex`). -/
theorem C9_place_step_asserts_open (lv : Level) (r c dr dc : Int)
    (hfit : Fits8 lv)
    (hdir : (dr, dc) ∈ dirs)
    (hmv : (lv.get r c).type = CellType.MOVABLE) :
    tryMoveAssertOk lv r c dr dc = true := by
  rw [tryMoveAssertOk_eq_of_fits lv r c dr dc hmv hfit]
  exact tryMoveR_assertOk lv r c dr dc hdir hmv

/-- Witness for C9: a successful push to the right in `"1 1"` (which grabs
the second block in a chain), with all place-step assertions passing. -/
theorem C9_place_step_asserts_open_witness : tryMoveAssertOk levelRow11 1 1 0 1 = true :=
  C9_place_step_asserts_open levelRow11 1 1 0 1 (by decide) (by decide) (by decide)

/-- C7: for every grid state whose group-`g` cells are movable, when the
scan finds a cell `p` of group `g`, `AttemptGroupMove` (`MoveGroup`)
returns failure if and only if some cell in the transitively grabbed set
(the closure of the grab links starting at `p`) has a wall in the push
direction; there is no other failure mode. -/
theorem C7_failure_iff_wall (lv : Level) (g : Nat) (dc : Int) (p : Int × Int)
    (hdc : dc = -1 ∨ dc = 1)
    (hfind : (interiorScan lv.height lv.width).find?
      (fun q => decide ((lv.get q.1 q.2).group = g)) = some p)
    (hmv : ∀ q ∈ interiorScan lv.height lv.width,
      (lv.get q.1 q.2).group = g → (lv.get q.1 q.2).type = CellType.MOVABLE) :
    ((moveGroup lv g 0 dc).1 = false ↔
      ∃ q, Reaches lv 0 dc p q ∧ (lv.get q.1 (q.2 + dc)).type = CellType.WALL) := by
  have hdir : ((0 : Int), dc) ∈ dirs := by
    rcases hdc with h | h <;> subst h <;> decide
  have hpg : (lv.get p.1 p.2).group = g := by
    have := List.find?_some hfind
    simpa using this
  have hpmv : (lv.get p.1 p.2).type = CellType.MOVABLE :=
    hmv p (List.mem_of_find?_eq_some hfind) hpg
  have hMG : ((moveGroup lv g 0 dc).1 = false ↔ (tryMove lv p.1 p.2 0 dc).1 = false) := by
    rw [moveGroup_some lv g 0 dc p hfind]
    by_cases hb : (tryMove lv p.1 p.2 0 dc).1 = true
    · rw [if_pos hb]
      simp [hb]
    · rw [if_neg hb]
      have hbf : (tryMove lv p.1 p.2 0 dc).1 = false := by
        cases h : (tryMove lv p.1 p.2 0 dc).1
        · rfl
        · exact absurd h hb
      simp [hbf]
  rw [hMG, tryMove_fst_eq lv p.1 p.2 0 dc,
    tryMoveR_fail_iff_wall lv p.1 p.2 0 dc hdir hpmv]
  simp only [Int.add_zero, Prod.mk.eta]

/-- Witness for C7: pushing group 1 of `"1 1"` to the left fails, and
indeed the grabbed cell `(1, 1)` itself has the border wall at its left. -/
theorem C7_failure_iff_wall_witness : (moveGroup levelRow11 1 0 (-1)).1 = false :=
  (C7_failure_iff_wall levelRow11 1 (-1) (1, 1) (Or.inl rfl) (by decide) (by decide)).mpr
    ⟨(1, 1), Relation.ReflTransGen.refl, by decide⟩

/-- Shorthand cells for writing concrete grids: wall, open, movable. -/
def cW : Cell := Cell.wall

def cO : Cell := Cell.empty

def cM (color group : Nat) : Cell :=
  { type := CellType.MOVABLE, color := color, group := group }

def rowW : List Cell := [cW, cW, cW, cW, cW, cW]

/-- A level with two color-1 blocks (ids 1 and 3) on ledges beside a well
at column 3, and a color-2 block (id 2) between them in numbering order.
Either color-1 block can be dropped into the well first; the other then
lands on top of it, and the merge survivor's id depends on that order. -/
def lvC : Level := Level.ofLines [
  ['1', ' ', ' ', ' '],
  ['#', '2', ' ', '1'],
  ['#', '#', ' ', '#']]

def lvA1 : Level := { width := 6, height := 5, groups := 3, grid := [rowW,
  [cW, cO, cM 1 1, cO, cO, cW],
  [cW, cW, cM 2 2, cO, cM 1 3, cW],
  [cW, cW, cW, cO, cW, cW],
  rowW] }

def lvA2 : Level := { width := 6, height := 5, groups := 3, grid := [rowW,
  [cW, cO, cO, cO, cO, cW],
  [cW, cW, cM 2 2, cO, cM 1 3, cW],
  [cW, cW, cW, cM 1 1, cW, cW],
  rowW] }

def lvA3 : Level := { width := 6, height := 5, groups := 2, grid := [rowW,
  [cW, cO, cO, cO, cO, cW],
  [cW, cW, cM 2 1, cM 1 2, cO, cW],
  [cW, cW, cW, cM 1 2, cW, cW],
  rowW] }

def lvB1 : Level := { width := 6, height := 5, groups := 3, grid := [rowW,
  [cW, cM 1 1, cO, cO, cO, cW],
  [cW, cW, cM 2 2, cO, cO, cW],
  [cW, cW, cW, cM 1 3, cW, cW],
  rowW] }

def lvB2 : Level := { width := 6, height := 5, groups := 3, grid := [rowW,
  [cW, cO, cM 1 1, cO, cO, cW],
  [cW, cW, cM 2 2, cO, cO, cW],
  [cW, cW, cW, cM 1 3, cW, cW],
  rowW] }

def lvB3 : Level := { width := 6, height := 5, groups := 2, grid := [rowW,
  [cW, cO, cO, cO, cO, cW],
  [cW, cW, cM 2 2, cM 1 1, cO, cW],
  [cW, cW, cW, cM 1 1, cW, cW],
  rowW] }

set_option maxRecDepth 10000 in
theorem stepA1 : moveGroup lvC 1 0 1 = (true, lvA1) := by decide

set_option maxRecDepth 10000 in
theorem stepA2 : moveGroup lvA1 1 0 1 = (true, lvA2) := by decide

set_option maxRecDepth 10000 in
theorem stepA3 : moveGroup lvA2 3 0 (-1) = (true, lvA3) := by decide

set_option maxRecDepth 10000 in
theorem stepB1 : moveGroup lvC 3 0 (-1) = (true, lvB1) := by decide

set_option maxRecDepth 10000 in
theorem stepB2 : moveGroup lvB1 1 0 1 = (true, lvB2) := by decide

set_option maxRecDepth 10000 in
theorem stepB3 : moveGroup lvB2 1 0 1 = (true, lvB3) := by decide

/-- C6 counterexample: two successful move sequences from the same initial
level reach states with identical dimensions, cell types and cell colors,
yet the states are not equal — the group identifiers differ.  In the first
sequence block 1 falls into the well first and block 3 lands on top, so
the merge is triggered by the upper cell of group 3 and id 1 is the one
renumbered away; in the second sequence the blocks arrive in the opposite
order and id 3 is renumbered away.  Group numbering is therefore not a
canonical function of the topology. -/
theorem C6_group_numbering_not_canonical :
    (moveGroup lvC 1 0 1).1 = true ∧
    (moveGroup (moveGroup lvC 1 0 1).2 1 0 1).1 = true ∧
    (moveGroup (moveGroup (moveGroup lvC 1 0 1).2 1 0 1).2 3 0 (-1)).1 = true ∧
    (moveGroup lvC 3 0 (-1)).1 = true ∧
    (moveGroup (moveGroup lvC 3 0 (-1)).2 1 0 1).1 = true ∧
    (moveGroup (moveGroup (moveGroup lvC 3 0 (-1)).2 1 0 1).2 1 0 1).1 = true ∧
    (let a := (moveGroup (moveGroup (moveGroup lvC 1 0 1).2 1 0 1).2 3 0 (-1)).2
     let b := (moveGroup (moveGroup (moveGroup lvC 3 0 (-1)).2 1 0 1).2 1 0 1).2
     a.width = b.width ∧ a.height = b.height ∧ a.groups = b.groups ∧
     (a.grid.map fun row => row.map fun x => (x.type, x.color)) =
       (b.grid.map fun row => row.map fun x => (x.type, x.color)) ∧
     a ≠ b) := by
  simp only [stepA1, stepA2, stepA3, stepB1, stepB2, stepB3]
  decide

/-- C6 (amended): the three-way comparison used to deduplicate and index
states declares two states equal exactly when they agree on dimensions,
group count and the full grid — including the group identifiers.  Since
the group numbering depends on the order of moves (see the counterexample),
topologically identical states need not compare equal. -/
theorem C6_compare_eq_iff_identical (a b : Level) :
    (levelCmp a b = Ordering.eq ↔
      (a.width = b.width ∧ a.height = b.height ∧ a.groups = b.groups ∧
        a.grid = b.grid)) := by
  rw [levelCmp_eq_iff]
  obtain ⟨w1, h1, g1, gr1⟩ := a
  obtain ⟨w2, h2, g2, gr2⟩ := b
  simp [and_assoc]


/-- C8 (amended): for every grid state whose coordinates fit the `uint8_t`
point records (at most 256 rows and columns) and whose positive-group
cells are movable (as the data model guarantees), `Successors` returns a
duplicate-free list containing exactly the states obtainable from the
input by one successful horizontal group push (for a group id in
`1..groups`); the input itself is untouched, as `Successors` only works
on a copy.  Without the size bound a failed move corrupts the reused
working copy, and `Successors` can return states not obtainable by any
single push (`C8_successors_truncation_cex`). -/
theorem C8_successors_exact (lv : Level)
    (hfit : Fits8 lv)
    (hmv : ∀ p ∈ interiorScan lv.height lv.width,
      1 ≤ (lv.get p.1 p.2).group → (lv.get p.1 p.2).type = CellType.MOVABLE) :
    (successors lv).Nodup ∧
    (∀ s, s ∈ successors lv ↔
      ∃ g dc, 1 ≤ g ∧ g ≤ lv.groups ∧ (dc = -1 ∨ dc = 1) ∧
        moveGroup lv g 0 dc = (true, s)) := by
  constructor
  · unfold successors
    have hsorted : List.Sorted levelLE
        (List.insertionSort levelLE (succLoop lv lv (gdcList lv.groups) [])) :=
      List.sorted_insertionSort levelLE _
    rcases hl : List.insertionSort levelLE (succLoop lv lv (gdcList lv.groups) []) with
      _ | ⟨a, rest⟩
    · simp [dedupAdj]
    · rw [dedupAdj]
      rw [hl] at hsorted
      have hch : List.Chain levelLE a rest := hsorted.chain
      exact chainS_nodup levelLT_trans (fun a h => h.2 rfl) _ _ (dedupAdjGo_chain a rest hch)
  · intro s
    unfold successors
    rw [mem_dedupAdj, (List.perm_insertionSort levelLE _).mem_iff,
      succLoop_eq lv hfit hmv (gdcList lv.groups) [] (gdcList_ge_one lv.groups),
      List.nil_append, List.mem_filterMap]
    constructor
    · rintro ⟨⟨g, dc⟩, hmem, hf⟩
      obtain ⟨h1, h2, h3⟩ := (mem_gdcList lv.groups g dc).mp hmem
      refine ⟨g, dc, h1, h2, h3, ?_⟩
      cases hb : (moveGroup lv g 0 dc).1
      · rw [hb] at hf
        simp at hf
      · rw [hb] at hf
        simp only [if_true] at hf
        have h4 : (moveGroup lv g 0 dc).2 = s := Option.some.inj hf
        exact Prod.ext hb h4
    · rintro ⟨g, dc, h1, h2, h3, hmg⟩
      refine ⟨(g, dc), (mem_gdcList lv.groups g dc).mpr ⟨h1, h2, h3⟩, ?_⟩
      rw [hmg]
      simp

theorem C8_successors_exact_witness :
    (successors levelRow11).Nodup ∧
    (∀ s, s ∈ successors levelRow11 ↔
      ∃ g dc, 1 ≤ g ∧ g ≤ levelRow11.groups ∧ (dc = -1 ∨ dc = 1) ∧
        moveGroup levelRow11 g 0 dc = (true, s)) :=
  C8_successors_exact levelRow11 (by decide) (by decide)


/-- The `"11"` level: two horizontally adjacent blocks of color 1. -/
def levelTwoAdj : Level := Level.ofLines [['1', '1']]

/-- C4: for every grid state whose movable cells all lie in the interior
(as every constructed level guarantees via its wall border), `Solved`
returns true if and only if, for every chromatic color present, the cells
bearing that color are pairwise connected through 4-neighbor steps over
cells of that exact color — i.e. each color forms a single
4-connected region.  Neutral (color 0) blocks transmit nothing. -/
theorem C4_solved_iff (lv : Level)
    (hwf : movableInteriorOnly lv = true) :
    (Solved lv = true ↔
      ∀ p q : Int × Int, (lv.get p.1 p.2).type = CellType.MOVABLE →
        (lv.get q.1 q.2).type = CellType.MOVABLE →
        0 < (lv.get p.1 p.2).color →
        (lv.get p.1 p.2).color = (lv.get q.1 q.2).color →
        ReachCol lv (lv.get p.1 p.2).color p q) := by
  have hwf2 := movableInteriorOnly_spec lv hwf
  constructor
  · intro hs p q hpm hqm hpc hpq
    refine solvedLoop_true_conn lv hwf2 (interiorScan lv.height lv.width) [] []
      (by simp) (by simp) (by simp) (by simp) hs p q ?_ ?_ hpm hqm hpc hpq
    · refine Or.inl ?_
      have h := hwf2 p.1 p.2 hpm
      simpa using h
    · refine Or.inl ?_
      have h := hwf2 q.1 q.2 hqm
      simpa using h
  · intro hc
    unfold Solved
    exact solvedLoop_conn_true lv hwf2 hc (interiorScan lv.height lv.width) [] []
      (by simp) (by intro x _ _ hx; simp at hx)

/-- Witness for C4: `"11"` is solved, and the theorem yields the
connectivity of its two blocks. -/
theorem C4_solved_iff_witness :
    ReachCol levelTwoAdj ((levelTwoAdj.get 1 1).color) (1, 1) (1, 2) :=
  (C4_solved_iff levelTwoAdj (by decide)).mp (by decide) (1, 1) (1, 2) (by decide)
    (by decide) (by decide) (by decide)


/-- A wall row of width `n`. -/
def rowWallN (n : Nat) : List Cell := List.replicate n cW

/-- Width-259 level: a single group-1 block at interior column 257 (which
narrows to column 1), everything to its left open. -/
def lvWideC2 : Level :=
  { width := 259, height := 3, groups := 1,
    grid := [rowWallN 259,
             cW :: List.replicate 256 cO ++ [cM 1 1, cW],
             rowWallN 259] }

/-- As `lvWideC2`, but with a wall at interior column 1 — the narrowed
rollback destination of the block at column 257. -/
def lvWideC9 : Level :=
  { width := 259, height := 3, groups := 1,
    grid := [rowWallN 259,
             cW :: cW :: List.replicate 255 cO ++ [cM 1 1, cW],
             rowWallN 259] }

/-- Width-259 level with the group-1 block at column 257 walled in on
both sides (interior wall at 256, border wall at 258): no push can
legally succeed. -/
def lvWideC8 : Level :=
  { width := 259, height := 3, groups := 1,
    grid := [rowWallN 259,
             cW :: List.replicate 255 cO ++ [cW, cM 1 1, cW],
             rowWallN 259] }

set_option maxRecDepth 100000 in
/-- C2 counterexample: pushing the block at interior column 257 into the
right border wall fails, but the rollback writes the block back at the
narrowed column `257 mod 256 = 1`, so `MoveGroup` returns failure with a
mutated state — the block has teleported from column 257 to column 1. -/
theorem C2_rollback_truncation_cex :
    (moveGroup lvWideC2 1 0 1).1 = false ∧
    (moveGroup lvWideC2 1 0 1).2 ≠ lvWideC2 := by
  decide

set_option maxRecDepth 100000 in
/-- C9 counterexample: with a wall at interior column 1, the same failed
push's rollback targets the narrowed coordinate `(1, 1)`, and the place
step's `assert(grid[r2][c2].type == Cell::OPEN)` fails — the destination
is a wall.  The start cell `(1, 257)` is exactly the one `MoveGroup`
selects for group 1. -/
theorem C9_place_step_assert_fails_cex :
    (interiorScan lvWideC9.height lvWideC9.width).find?
      (fun q => decide ((lvWideC9.get q.1 q.2).group = 1)) = some (1, 257) ∧
    (lvWideC9.get 1 257).type = CellType.MOVABLE ∧
    tryMoveAssertOk lvWideC9 1 257 0 1 = false := by
  decide

set_option maxRecDepth 100000 in
/-- C8 counterexample: both pushes of the only group fail against walls,
so no state is obtainable from `lvWideC8` by one successful push; yet
`Successors` returns a nonempty list — the first failure's rollback
teleports the block to column 1 in the reused working copy, whose
subsequent push then "succeeds". -/
theorem C8_successors_truncation_cex :
    (moveGroup lvWideC8 1 0 (-1)).1 = false ∧
    (moveGroup lvWideC8 1 0 1).1 = false ∧
    lvWideC8.groups = 1 ∧
    successors lvWideC8 ≠ [] := by
  decide

/-- A fold whose every step leaves the accumulator unchanged computes the
accumulator; used to evaluate the long sweep folds of `DropDown`,
`UpdateConnections` and `RemoveUnusedGroupNumber` on the wide levels
without materialising the whole fold chain. -/
theorem foldl_id {α β : Type} (f : α → β → α) (a : α) :
    ∀ l : List β, (∀ x ∈ l, f a x = a) → l.foldl f a = a := by
  intro l
  induction l with
  | nil => intro _; rfl
  | cons x t ih =>
    intro h
    have hx : f a x = a := h x (List.mem_cons_self _ _)
    show t.foldl f (f a x) = a
    rw [hx]
    exact ih fun y hy => h y (List.mem_cons_of_mem _ hy)

/-- A 3-wide interior row with a single open cell. -/
def rowT : List Cell := [cW, cO, cW]

/-- A 259-row, 3-wide level: an interior wall at row 5 and a single block
at interior row 257 (which narrows to row 1), resting on the bottom
border wall. -/
def lvTall : Level :=
  { width := 3, height := 259, groups := 1,
    grid := [[cW, cW, cW]] ++ List.replicate 4 rowT ++ [[cW, cW, cW]] ++
            List.replicate 251 rowT ++ [[cW, cM 1 1, cW]] ++ [[cW, cW, cW]] }

/-- `lvTall` after one gravity sweep: the failed down-push of the block at
row 257 rolled it back at the truncated row 1, where it hangs in mid-air. -/
def lvT1 : Level :=
  { width := 3, height := 259, groups := 1,
    grid := [[cW, cW, cW]] ++ [[cW, cM 1 1, cW]] ++ List.replicate 3 rowT ++
            [[cW, cW, cW]] ++ List.replicate 252 rowT ++ [[cW, cW, cW]] }

/-- The hanging block one row further down. -/
def lvT1b : Level :=
  { width := 3, height := 259, groups := 1,
    grid := [[cW, cW, cW]] ++ [rowT, [cW, cM 1 1, cW]] ++ List.replicate 2 rowT ++
            [[cW, cW, cW]] ++ List.replicate 252 rowT ++ [[cW, cW, cW]] }

/-- The hanging block two rows further down. -/
def lvT1c : Level :=
  { width := 3, height := 259, groups := 1,
    grid := [[cW, cW, cW]] ++ [rowT, rowT, [cW, cM 1 1, cW]] ++ [rowT] ++
            [[cW, cW, cW]] ++ List.replicate 252 rowT ++ [[cW, cW, cW]] }

/-- `lvTall` after two gravity sweeps: the block has settled at row 4 on
the interior wall. -/
def lvT2 : Level :=
  { width := 3, height := 259, groups := 1,
    grid := [[cW, cW, cW]] ++ [rowT, rowT, rowT, [cW, cM 1 1, cW]] ++
            [[cW, cW, cW]] ++ List.replicate 252 rowT ++ [[cW, cW, cW]] }

/-- The interior scan positions of `lvTall` before the last one. -/
def tallPre : List (Int × Int) := (List.range 256).map fun r => (Int.ofNat r + 1, 1)

/-- The interior scan positions of `lvTall` from row 5 on. -/
def tallRest : List (Int × Int) := (List.range 253).map fun r => (Int.ofNat r + 5, 1)

set_option maxRecDepth 100000 in
theorem ddTall1 : dropDown lvTall = lvT1 := by
  unfold dropDown
  rw [show interiorScan lvTall.height lvTall.width =
      (tallPre ++ [((257 : Int), (1 : Int))]) from by decide]
  calc List.foldl dropStep lvTall (tallPre ++ [((257 : Int), (1 : Int))])
      = List.foldl dropStep (List.foldl dropStep lvTall tallPre)
          [((257 : Int), (1 : Int))] := List.foldl_append _ _ _ _
    _ = List.foldl dropStep lvTall [((257 : Int), (1 : Int))] :=
        congrArg (fun x => List.foldl dropStep x [((257 : Int), (1 : Int))])
          (foldl_id dropStep lvTall tallPre (by decide))
    _ = lvT1 := by
        rw [List.foldl_cons, List.foldl_nil]
        decide

set_option maxRecDepth 100000 in
theorem ddTall2 : dropDown lvT1 = lvT2 := by
  have h4 : List.foldl dropStep lvT1
      [((1 : Int), (1 : Int)), ((2 : Int), (1 : Int)),
       ((3 : Int), (1 : Int)), ((4 : Int), (1 : Int))] = lvT2 := by
    rw [List.foldl_cons, show dropStep lvT1 ((1 : Int), (1 : Int)) = lvT1b from by decide]
    rw [List.foldl_cons, show dropStep lvT1b ((2 : Int), (1 : Int)) = lvT1c from by decide]
    rw [List.foldl_cons, show dropStep lvT1c ((3 : Int), (1 : Int)) = lvT2 from by decide]
    rw [List.foldl_cons, show dropStep lvT2 ((4 : Int), (1 : Int)) = lvT2 from by decide,
      List.foldl_nil]
  unfold dropDown
  rw [show interiorScan lvT1.height lvT1.width =
      ([((1 : Int), (1 : Int)), ((2 : Int), (1 : Int)),
        ((3 : Int), (1 : Int)), ((4 : Int), (1 : Int))] ++ tallRest) from by decide]
  calc List.foldl dropStep lvT1
        ([((1 : Int), (1 : Int)), ((2 : Int), (1 : Int)),
          ((3 : Int), (1 : Int)), ((4 : Int), (1 : Int))] ++ tallRest)
      = List.foldl dropStep (List.foldl dropStep lvT1
          [((1 : Int), (1 : Int)), ((2 : Int), (1 : Int)),
           ((3 : Int), (1 : Int)), ((4 : Int), (1 : Int))]) tallRest :=
        List.foldl_append _ _ _ _
    _ = List.foldl dropStep lvT2 tallRest :=
        congrArg (fun x => List.foldl dropStep x tallRest) h4
    _ = lvT2 := foldl_id dropStep lvT2 tallRest (by decide)

set_option maxRecDepth 100000 in
/-- C3 counterexample: on a 259-row level the gravity sweep is not
idempotent.  The sweep's failed down-push of the block at interior row 257
rolls it back at the `uint8_t`-truncated row 1, where it hangs over open
cells; one sweep therefore does not settle all blocks, and a second sweep
moves the block further, down to the wall at row 5. -/
theorem C3_dropdown_not_idempotent :
    ((dropDown lvTall).get 1 1).type = CellType.MOVABLE ∧
    ((dropDown lvTall).get 2 1).type = CellType.OPEN ∧
    dropDown (dropDown lvTall) ≠ dropDown lvTall := by
  rw [ddTall1, ddTall2]
  decide

end Jelly
